import Mathlib

/-!
Verification development for the ccusage Codex usage-reporting core:
the tiered pricing resolver (`src/apps/codex/src/pricing.ts`) and the
daily / monthly / session report builders
(`src/unnamed/part_000` = daily-report, `src/apps/codex/src/monthly-report.ts`,
`src/apps/codex/src/session-report.ts`).

JavaScript strings are embedded as Lean `String` (a wrapper around `List Char`),
and the JavaScript string primitives the code uses (`<`/`>` and
`localeCompare` on ISO keys, `trim`, `toLowerCase`, `includes`,
`lastIndexOf`/`slice`) are given explicit executable models over the
character list.  JavaScript `Map` objects are embedded as association
lists in insertion order, which is the iteration order of a `Map`.
Numbers that carry money are embedded as exact rationals.
-/

namespace Ccusage

/-! ### Character-list string primitives -/

/-- Lexicographic strict comparison of character lists by code point.
Embeds the JavaScript `<`/`>` comparison on strings (used on ISO-8601
timestamps, where code-point order is chronological order). -/
def lexLt : List Char → List Char → Bool
  | [], [] => false
  | [], _ :: _ => true
  | _ :: _, [] => false
  | a :: as, b :: bs =>
      decide (a.toNat < b.toNat) || (decide (a.toNat = b.toNat) && lexLt as bs)

/-- Lexicographic non-strict comparison of character lists by code point. -/
def lexLe : List Char → List Char → Bool
  | [], _ => true
  | _ :: _, [] => false
  | a :: as, b :: bs =>
      decide (a.toNat < b.toNat) || (decide (a.toNat = b.toNat) && lexLe as bs)

/-- JavaScript string `<`. -/
def strLt (a b : String) : Bool := lexLt a.data b.data

/-- JavaScript string `<=`; also the order realized by `localeCompare`
on the ASCII date / month / timestamp keys the reports sort by. -/
def strLe (a b : String) : Bool := lexLe a.data b.data

/-- JavaScript `String.prototype.trim`: strip whitespace from both ends. -/
def trimList (l : List Char) : List Char :=
  ((l.dropWhile Char.isWhitespace).reverse.dropWhile Char.isWhitespace).reverse

/-- JavaScript `trim` on the string wrapper. -/
def strTrim (s : String) : String := ⟨trimList s.data⟩

/-- JavaScript `String.prototype.toLowerCase` (ASCII case folding). -/
def strLower (s : String) : String := ⟨s.data.map Char.toLower⟩

/-- Does `needle` occur as a contiguous sublist of `hay`? -/
def infixOfB (needle : List Char) : List Char → Bool
  | [] => needle.isEmpty
  | c :: t => needle.isPrefixOf (c :: t) || infixOfB needle t

/-- JavaScript `hay.includes(needle)`. -/
def strContainsSub (hay needle : String) : Bool := infixOfB needle.data hay.data

theorem lexLe_refl (l : List Char) : lexLe l l = true := by
  induction l with
  | nil => rfl
  | cons a as ih => simp [lexLe, ih]

theorem lexLe_cons {a b : Char} {as bs : List Char} :
    lexLe (a :: as) (b :: bs) = true ↔
      a.toNat < b.toNat ∨ (a.toNat = b.toNat ∧ lexLe as bs = true) := by
  simp [lexLe]

theorem lexLt_cons {a b : Char} {as bs : List Char} :
    lexLt (a :: as) (b :: bs) = true ↔
      a.toNat < b.toNat ∨ (a.toNat = b.toNat ∧ lexLt as bs = true) := by
  simp [lexLt]

theorem lexLe_total (a b : List Char) : lexLe a b = true ∨ lexLe b a = true := by
  induction a generalizing b with
  | nil => left; rfl
  | cons x xs ih =>
    cases b with
    | nil => right; rfl
    | cons y ys =>
      rcases Nat.lt_trichotomy x.toNat y.toNat with h | h | h
      · left; exact lexLe_cons.mpr (Or.inl h)
      · rcases ih ys with h' | h'
        · left; exact lexLe_cons.mpr (Or.inr ⟨h, h'⟩)
        · right; exact lexLe_cons.mpr (Or.inr ⟨h.symm, h'⟩)
      · right; exact lexLe_cons.mpr (Or.inl h)

theorem lexLe_trans {a b c : List Char} (h₁ : lexLe a b = true)
    (h₂ : lexLe b c = true) : lexLe a c = true := by
  induction a generalizing b c with
  | nil => rfl
  | cons x xs ih =>
    cases b with
    | nil => cases h₁
    | cons y ys =>
      cases c with
      | nil => cases h₂
      | cons z zs =>
        rcases lexLe_cons.mp h₁ with h₁ | ⟨e₁, t₁⟩ <;>
          rcases lexLe_cons.mp h₂ with h₂ | ⟨e₂, t₂⟩
        · exact lexLe_cons.mpr (Or.inl (Nat.lt_trans h₁ h₂))
        · exact lexLe_cons.mpr (Or.inl (e₂ ▸ h₁))
        · exact lexLe_cons.mpr (Or.inl (e₁ ▸ h₂))
        · exact lexLe_cons.mpr (Or.inr ⟨e₁.trans e₂, ih t₁ t₂⟩)

theorem charToNat_inj {a b : Char} (h : a.toNat = b.toNat) : a = b := by
  apply Char.ext
  exact UInt32.toNat.inj h

theorem lexLe_antisymm {a b : List Char} (h₁ : lexLe a b = true)
    (h₂ : lexLe b a = true) : a = b := by
  induction a generalizing b with
  | nil => cases b with
    | nil => rfl
    | cons y ys => cases h₂
  | cons x xs ih =>
    cases b with
    | nil => cases h₁
    | cons y ys =>
      rcases lexLe_cons.mp h₁ with h₁ | ⟨e₁, t₁⟩ <;>
        rcases lexLe_cons.mp h₂ with h₂ | ⟨e₂, t₂⟩
      · exact absurd h₂ (Nat.lt_asymm h₁)
      · exact absurd (e₂ ▸ h₁) (Nat.lt_irrefl _)
      · exact absurd (e₁ ▸ h₂) (Nat.lt_irrefl _)
      · rw [charToNat_inj e₁, ih t₁ t₂]

theorem lexLt_le {a b : List Char} (h : lexLt a b = true) : lexLe a b = true := by
  induction a generalizing b with
  | nil => rfl
  | cons x xs ih =>
    cases b with
    | nil => cases h
    | cons y ys =>
      rcases lexLt_cons.mp h with h | ⟨e, t⟩
      · exact lexLe_cons.mpr (Or.inl h)
      · exact lexLe_cons.mpr (Or.inr ⟨e, ih t⟩)

theorem lexLt_false_le {a b : List Char} (h : lexLt a b = false) :
    lexLe b a = true := by
  induction a generalizing b with
  | nil =>
    cases b with
    | nil => rfl
    | cons y ys => cases h
  | cons x xs ih =>
    cases b with
    | nil => rfl
    | cons y ys =>
      have h' : ¬ (x.toNat < y.toNat ∨ (x.toNat = y.toNat ∧ lexLt xs ys = true)) := by
        intro hc
        exact absurd (lexLt_cons.mpr hc) (by simp [h])
      push_neg at h'
      rcases Nat.lt_trichotomy x.toNat y.toNat with hlt | heq | hgt
      · exact absurd h'.1 (Nat.not_le_of_lt hlt)
      · have := h'.2 heq
        have ht : lexLt xs ys = false := by
          cases hx : lexLt xs ys
          · rfl
          · exact absurd hx this
        exact lexLe_cons.mpr (Or.inr ⟨heq.symm, ih ht⟩)
      · exact lexLe_cons.mpr (Or.inl hgt)

theorem lexLe_ne_lt {a b : List Char} (h : lexLe a b = true) (hne : a ≠ b) :
    lexLt a b = true := by
  induction a generalizing b with
  | nil =>
    cases b with
    | nil => exact absurd rfl hne
    | cons y ys => rfl
  | cons x xs ih =>
    cases b with
    | nil => cases h
    | cons y ys =>
      rcases lexLe_cons.mp h with h | ⟨e, t⟩
      · exact lexLt_cons.mpr (Or.inl h)
      · have hxy : x = y := charToNat_inj e
        have : xs ≠ ys := by
          intro hc; exact hne (by rw [hxy, hc])
        exact lexLt_cons.mpr (Or.inr ⟨e, ih t this⟩)

theorem lexLt_asymm {a b : List Char} (h₁ : lexLt a b = true)
    (h₂ : lexLt b a = true) : False := by
  have e := lexLe_antisymm (lexLt_le h₁) (lexLt_le h₂)
  subst e
  induction a with
  | nil => cases h₁
  | cons x xs ih =>
    rcases lexLt_cons.mp h₁ with h | ⟨_, t⟩
    · exact Nat.lt_irrefl _ h
    · exact ih t t

theorem string_data_eq {a b : String} (h : a.data = b.data) : a = b := by
  cases a; cases b; cases h; rfl

theorem strLe_refl (s : String) : strLe s s = true := lexLe_refl _

theorem strLe_total (a b : String) : strLe a b = true ∨ strLe b a = true :=
  lexLe_total _ _

theorem strLe_trans {a b c : String} (h₁ : strLe a b = true)
    (h₂ : strLe b c = true) : strLe a c = true := lexLe_trans h₁ h₂

theorem strLe_antisymm {a b : String} (h₁ : strLe a b = true)
    (h₂ : strLe b a = true) : a = b := string_data_eq (lexLe_antisymm h₁ h₂)

theorem strLt_le {a b : String} (h : strLt a b = true) : strLe a b = true :=
  lexLt_le h

theorem strLt_false_le {a b : String} (h : strLt a b = false) :
    strLe b a = true := lexLt_false_le h

theorem strLe_ne_lt {a b : String} (h : strLe a b = true) (hne : a ≠ b) :
    strLt a b = true := by
  refine lexLe_ne_lt h ?_
  intro hc; exact hne (string_data_eq hc)

theorem strLt_asymm {a b : String} (h₁ : strLt a b = true)
    (h₂ : strLt b a = true) : False := lexLt_asymm h₁ h₂

theorem infixOfB_iff {needle hay : List Char} :
    infixOfB needle hay = true ↔ needle <:+: hay := by
  induction hay with
  | nil =>
    simp [infixOfB, List.isEmpty_iff]
  | cons c t ih =>
    simp only [infixOfB, Bool.or_eq_true, List.infix_cons_iff, ih,
      List.isPrefixOf_iff_prefix]

/-! ### Pricing resolver (`src/apps/codex/src/pricing.ts`) -/

/-- Raw LiteLLM pricing record: per-token costs, any of which may be absent.
Money amounts are embedded as exact rationals. -/
structure LiteLLMModelPricing where
  input_cost_per_token : Option ℚ := none
  output_cost_per_token : Option ℚ := none
  cache_read_input_token_cost : Option ℚ := none
deriving DecidableEq, Repr

/-- The four resolution tiers (`PricingResolution` in `_types.ts`). -/
inductive PricingResolution where
  | direct
  | alias
  | fuzzy
  | fallback
deriving DecidableEq, Repr

/-- Normalized per-million-token pricing (`ModelPricing` in `_types.ts`). -/
structure ModelPricing where
  inputCostPerMToken : ℚ
  cachedInputCostPerMToken : ℚ
  outputCostPerMToken : ℚ
  pricingResolution : PricingResolution
  pricingModel : String
deriving DecidableEq, Repr

/-- A JavaScript `Map` keyed by strings, as an association list in
insertion order. -/
abbrev StrMap (α : Type) := List (String × α)

/-- `Map.prototype.get`: the value at the first (unique) matching key. -/
def mapGet {α : Type} (k : String) : StrMap α → Option α
  | [] => none
  | p :: t => if p.1 = k then some p.2 else mapGet k t

/-- The price list as fetched, keyed by LiteLLM model name. -/
abbrev PricingMap := StrMap LiteLLMModelPricing

/-- `MILLION` from `_consts.ts`. -/
def MILLION : ℚ := 1000000

/-- `CODEX_PROVIDER_PREFIXES` from `pricing.ts`. -/
def CODEX_PROVIDER_PREFIXES : List String := ["openai/", "azure/", "openrouter/openai/"]

/-- `CODEX_MODEL_ALIASES_MAP` from `pricing.ts`. -/
def CODEX_MODEL_ALIASES_MAP : StrMap String := [("gpt-5-codex", "gpt-5")]

/-- A resolved (but not yet normalized) pricing entry:
`{ key, pricing, resolution }` in `pricing.ts`. -/
structure ResolvedPricing where
  key : String
  pricing : LiteLLMModelPricing
  resolution : PricingResolution
deriving DecidableEq, Repr

/-- `CodexPricingSource.createResolvedPricing`. -/
def createResolvedPricing (key : String) (pricing : LiteLLMModelPricing)
    (resolution : PricingResolution) : ResolvedPricing :=
  { key := key, pricing := pricing, resolution := resolution }

/-- `CodexPricingSource.findDirectPricing`: try the model name verbatim,
then each provider prefix in list order; first hit wins, tagged `direct`. -/
def findDirectPricing (pricingMap : PricingMap) (model : String) :
    Option ResolvedPricing :=
  let candidates := model :: CODEX_PROVIDER_PREFIXES.map (fun pfx => pfx ++ model)
  candidates.findSome? fun candidate =>
    (mapGet candidate pricingMap).map fun pricing =>
      createResolvedPricing candidate pricing .direct

/-- `CodexPricingSource.findAliasPricing`: map through the static alias
table, then retry the direct tier on the canonical name; tagged `alias`. -/
def findAliasPricing (pricingMap : PricingMap) (model : String) :
    Option ResolvedPricing :=
  match mapGet model CODEX_MODEL_ALIASES_MAP with
  | none => none
  | some al =>
    match findDirectPricing pricingMap al with
    | none => none
    | some aliasPricing =>
      some (createResolvedPricing aliasPricing.key aliasPricing.pricing .alias)

/-- The candidate collection of `CodexPricingSource.findFuzzyPricing`:
every price-list entry whose key, case-insensitively, contains the model
name or is contained in it. -/
def fuzzyMatches (pricingMap : PricingMap) (model : String) :
    List (String × LiteLLMModelPricing) :=
  let lower := strLower model
  pricingMap.filter fun kv =>
    strContainsSub (strLower kv.1) lower || strContainsSub lower (strLower kv.1)

/-- The error conditions thrown by `pricing.ts`, with the data each
message carries. -/
inductive PricingError where
  | ambiguousFuzzy (model : String) (candidates : List String)
  | incomplete (model : String)
  | notFound (model : String) (allowFuzzyPricing : Bool)
  | fallbackFailed (fallbackModel : String) (model : String)
  | missingValue
deriving DecidableEq, Repr

/-- `Array.prototype.join(', ')`. -/
def joinComma : List String → String
  | [] => ""
  | [x] => x
  | x :: xs => x ++ ", " ++ joinComma xs

/-- The exact `Error` message text of each throw site in `pricing.ts`. -/
def renderPricingError : PricingError → String
  | .ambiguousFuzzy model candidates =>
      "Ambiguous fuzzy pricing resolution for model " ++ model ++ "; " ++
        toString candidates.length ++ " candidates found: " ++ joinComma candidates
  | .incomplete model =>
      "Pricing for model " ++ model ++
        " is incomplete: input_cost_per_token and output_cost_per_token are required"
  | .notFound model true => "Pricing not found for model " ++ model
  | .notFound model false =>
      "Pricing not found for model " ++ model ++
        ". Fuzzy matching is disabled; pass --allow-fuzzy-pricing to enable it."
  | .fallbackFailed fallbackModel model =>
      "Configured fallback model " ++ fallbackModel ++
        " could not be resolved for " ++ model
  | .missingValue => "Missing required pricing value"

/-- `CodexPricingSource.findFuzzyPricing`: zero matches fail softly,
a unique match is tagged `fuzzy`, two or more matches throw the
ambiguity error listing every candidate key. -/
def findFuzzyPricing (pricingMap : PricingMap) (model : String) :
    Except PricingError (Option ResolvedPricing) :=
  let ms := fuzzyMatches pricingMap model
  if ms.length = 0 then
    .ok none
  else if ms.length > 1 then
    .error (.ambiguousFuzzy model (ms.map Prod.fst))
  else
    match ms with
    | [] => .ok none
    | m :: _ => .ok (some (createResolvedPricing m.1 m.2 .fuzzy))

/-- `toPerMillion` from `pricing.ts`: `value ?? fallback`, failing when
both are absent, otherwise scaled by `MILLION`. -/
def toPerMillion (value : Option ℚ) (fallbackValue : Option ℚ) :
    Except PricingError ℚ :=
  match value.orElse (fun _ => fallbackValue) with
  | none => .error .missingValue
  | some perToken => .ok (perToken * MILLION)

/-- `CodexPricingSource.normalizeModelPricing`: require both per-token
costs, default the cache-read cost to the input cost, scale to
per-million. -/
def normalizeModelPricing (model : String) (resolved : ResolvedPricing) :
    Except PricingError ModelPricing :=
  let pricing := resolved.pricing
  match pricing.input_cost_per_token, pricing.output_cost_per_token with
  | some inputCostPerToken, some outputCostPerToken => do
    let i ← toPerMillion (some inputCostPerToken) none
    let c ← toPerMillion
      (some (pricing.cache_read_input_token_cost.getD inputCostPerToken)) none
    let o ← toPerMillion (some outputCostPerToken) none
    .ok { inputCostPerMToken := i
          cachedInputCostPerMToken := c
          outputCostPerMToken := o
          pricingResolution := resolved.resolution
          pricingModel := resolved.key }
  | _, _ => .error (.incomplete model)

/-- The caller-supplied options of `CodexPricingSource` that
`getPricing` consults. -/
structure CodexPricingConfig where
  allowFuzzyPricing : Bool := false
  unknownModelFallback : Option String := none
deriving DecidableEq, Repr

/-- `CodexPricingSource.getPricing` over an already-fetched price list:
direct, then alias, then (only when enabled) fuzzy, then the configured
fallback resolved through direct/alias only; the first success is
normalized.  The returned list carries the `logger.warn` messages
emitted on the way (one, exactly when the fallback was used). -/
def getPricing (cfg : CodexPricingConfig) (pricingMap : PricingMap)
    (model : String) : Except PricingError (ModelPricing × List String) :=
  let direct := findDirectPricing pricingMap model
  let afterAlias :=
    match direct with
    | some r => some r
    | none => findAliasPricing pricingMap model
  let afterFuzzy : Except PricingError (Option ResolvedPricing) :=
    match afterAlias with
    | some r => .ok (some r)
    | none =>
      if cfg.allowFuzzyPricing then findFuzzyPricing pricingMap model
      else .ok none
  match afterFuzzy with
  | .error e => .error e
  | .ok (some r) => (normalizeModelPricing model r).map fun mp => (mp, [])
  | .ok none =>
    match cfg.unknownModelFallback with
    | none => .error (.notFound model cfg.allowFuzzyPricing)
    | some fb =>
      let fallbackModel := strTrim fb
      if fallbackModel ≠ "" then
        match
          (findDirectPricing pricingMap fallbackModel).orElse
            (fun _ => findAliasPricing pricingMap fallbackModel) with
        | none => .error (.fallbackFailed fallbackModel model)
        | some fallbackPricing =>
          (normalizeModelPricing model
            (createResolvedPricing fallbackPricing.key fallbackPricing.pricing
              .fallback)).map
            fun mp =>
              (mp, ["Using fallback model pricing: " ++ model ++ " -> " ++
                fallbackModel])
      else .error (.notFound model cfg.allowFuzzyPricing)

/-! ### Usage events and report builders

`buildDailyReport` (src/unnamed/part_000), `buildMonthlyReport`
(monthly-report.ts) and `buildSessionReport` (session-report.ts) are
three copies of one fold; they differ only in the grouping key
(day key / month key / trimmed session id), in the extra session-id
guard, and in the session builder's last-activity tracking.  The three
summary record types of `_types.ts` differ only in the name of the key
field (`date` / `month` / `sessionId`) and in the session-only
`lastTimestamp`, so they are embedded as one `GroupSummary` record.

`token-utils.ts` and `date-utils.ts` are not part of the given sources.
`addUsage`, `createEmptyUsage` and `calculateCostUSD` are modelled from
the spec below; `toDateKey` / `toMonthKey` (timezone calendar
arithmetic) are abstracted as function parameters `tdk` / `tmk`, and the
display formatters `formatDisplayDate` / `formatDisplayMonth` as `fmt`.
-/

/-- `TokenUsageEvent` from `_types.ts`.  The session id is optional
because `buildSessionReport` defensively checks it for `null`. -/
structure TokenUsageEvent where
  timestamp : String
  sessionId : Option String := none
  model : Option String := none
  isFallbackModel : Bool := false
  inputTokens : ℕ := 0
  cachedInputTokens : ℕ := 0
  outputTokens : ℕ := 0
  reasoningOutputTokens : ℕ := 0
  totalTokens : ℕ := 0
deriving DecidableEq, Repr

/-- `ModelUsage` from `_types.ts`. -/
structure ModelUsage where
  inputTokens : ℕ := 0
  cachedInputTokens : ℕ := 0
  outputTokens : ℕ := 0
  reasoningOutputTokens : ℕ := 0
  totalTokens : ℕ := 0
  isFallback : Bool := false
  pricingResolution : Option PricingResolution := none
  pricingModel : Option String := none
deriving DecidableEq, Repr

/-- Modelled from the spec: `createEmptyUsage` of the missing
`token-utils.ts` — a zero usage delta. -/
def createEmptyUsage : ModelUsage := {}

/-- Modelled from the spec: `addUsage` of the missing `token-utils.ts` —
"simple integer summation across all five delta fields", here adding an
event's delta into a per-model usage. -/
def addUsageModel (u : ModelUsage) (e : TokenUsageEvent) : ModelUsage :=
  { u with
    inputTokens := u.inputTokens + e.inputTokens
    cachedInputTokens := u.cachedInputTokens + e.cachedInputTokens
    outputTokens := u.outputTokens + e.outputTokens
    reasoningOutputTokens := u.reasoningOutputTokens + e.reasoningOutputTokens
    totalTokens := u.totalTokens + e.totalTokens }

/-- Modelled from the spec: `calculateCostUSD` of the missing
`token-utils.ts` — uncached input at the input rate, cached input at the
cache rate, all output (reasoning included) at the output rate. -/
def calculateCostUSD (usage : ModelUsage) (pricing : ModelPricing) : ℚ :=
  ((usage.inputTokens : ℚ) - (usage.cachedInputTokens : ℚ)) / 1000000 *
      pricing.inputCostPerMToken +
    (usage.cachedInputTokens : ℚ) / 1000000 * pricing.cachedInputCostPerMToken +
    (usage.outputTokens : ℚ) / 1000000 * pricing.outputCostPerMToken

/-- Modelled from the spec: `isWithinRange` of the missing
`date-utils.ts` — the inclusive day-granularity `[since, until]` filter
on a day key, each bound optional. -/
def isWithinRange (dateKey : String) (since untilD : Option String) : Bool :=
  (match since with
   | none => true
   | some s => strLe s dateKey) &&
  (match untilD with
   | none => true
   | some u => strLe dateKey u)

/-- One accumulation group: `DailyUsageSummary` / `MonthlyUsageSummary` /
`SessionUsageSummary` from `_types.ts`, with `key` standing for the
`date` / `month` / `sessionId` field; `lastTimestamp` is only consulted
by the session builder. -/
structure GroupSummary where
  key : String
  firstTimestamp : String
  lastTimestamp : String
  inputTokens : ℕ
  cachedInputTokens : ℕ
  outputTokens : ℕ
  reasoningOutputTokens : ℕ
  totalTokens : ℕ
  costUSD : ℚ
  models : StrMap ModelUsage
deriving DecidableEq, Repr

/-- The `createSummary` helpers: a fresh summary stamped with the first
event's timestamp and zero totals. -/
def createSummary (key initialTimestamp : String) : GroupSummary :=
  { key := key
    firstTimestamp := initialTimestamp
    lastTimestamp := initialTimestamp
    inputTokens := 0
    cachedInputTokens := 0
    outputTokens := 0
    reasoningOutputTokens := 0
    totalTokens := 0
    costUSD := 0
    models := [] }

/-- `addUsage(summary, event)` on a group summary (same spec-modelled
fold as `addUsageModel`). -/
def addUsageSummary (s : GroupSummary) (e : TokenUsageEvent) : GroupSummary :=
  { s with
    inputTokens := s.inputTokens + e.inputTokens
    cachedInputTokens := s.cachedInputTokens + e.cachedInputTokens
    outputTokens := s.outputTokens + e.outputTokens
    reasoningOutputTokens := s.reasoningOutputTokens + e.reasoningOutputTokens
    totalTokens := s.totalTokens + e.totalTokens }

/-- The per-model block shared by the three builders: get or create the
model's usage, set it if absent (appending in insertion order), add the
event's delta, and make the fallback marker sticky. -/
def updateModels (models : StrMap ModelUsage) (modelName : String)
    (e : TokenUsageEvent) : StrMap ModelUsage :=
  let existing := mapGet modelName models
  let base :=
    match existing with
    | some mu => mu
    | none => { createEmptyUsage with isFallback := false }
  let added := addUsageModel base e
  let updated := if e.isFallbackModel then { added with isFallback := true } else added
  match existing with
  | some _ => models.map fun kv => if kv.1 = modelName then (kv.1, updated) else kv
  | none => models ++ [(modelName, updated)]

/-- The per-event mutation of a group summary: `addUsage` into the group
totals, the session builder's last-activity bump (`trackLast`), and the
per-model block. -/
def applyEvent (trackLast : Bool) (e : TokenUsageEvent) (modelName : String)
    (s : GroupSummary) : GroupSummary :=
  let s1 := addUsageSummary s e
  let s2 :=
    if trackLast && strLt s1.lastTimestamp e.timestamp then
      { s1 with lastTimestamp := e.timestamp }
    else s1
  { s2 with models := updateModels s2.models modelName e }

/-- One loop iteration of a report builder: if the event passes the
guards (`elig` returns the trimmed model name), update the summary at
its group key in place, or append a fresh one. -/
def stepCore (gk : TokenUsageEvent → String) (trackLast : Bool)
    (elig : TokenUsageEvent → Option String) (acc : List GroupSummary)
    (e : TokenUsageEvent) : List GroupSummary :=
  match elig e with
  | none => acc
  | some modelName =>
    let k := gk e
    match acc.find? (fun s => s.key = k) with
    | some _ =>
      acc.map fun s => if s.key = k then applyEvent trackLast e modelName s else s
    | none => acc ++ [applyEvent trackLast e modelName (createSummary k e.timestamp)]

/-- The whole accumulation loop. -/
def accumCore (gk : TokenUsageEvent → String) (trackLast : Bool)
    (elig : TokenUsageEvent → Option String) (events : List TokenUsageEvent) :
    List GroupSummary :=
  events.foldl (stepCore gk trackLast elig) []

/-- The guards of `buildDailyReport` / `buildMonthlyReport`: a present,
non-blank (after trimming) model name, and the day key within the
inclusive `[since, until]` filter. -/
def eligDaily (tdk : String → String) (since untilD : Option String)
    (e : TokenUsageEvent) : Option String :=
  match e.model with
  | none => none
  | some raw =>
    let modelName := strTrim raw
    if modelName = "" then none
    else if isWithinRange (tdk e.timestamp) since untilD then some modelName
    else none

/-- The guards of `buildSessionReport`: additionally a present,
non-blank (after trimming) session id. -/
def eligSession (tdk : String → String) (since untilD : Option String)
    (e : TokenUsageEvent) : Option String :=
  match e.sessionId with
  | none => none
  | some rawSession =>
    if strTrim rawSession = "" then none
    else eligDaily tdk since untilD e

/-- The trimmed session id, which the session builder groups by. -/
def sessionKey (e : TokenUsageEvent) : String :=
  strTrim (e.sessionId.getD "")

/-- The accumulated daily summaries of `buildDailyReport`, keyed by
`tdk timestamp` (the day key in the report timezone). -/
def dailySummaries (tdk : String → String) (since untilD : Option String)
    (events : List TokenUsageEvent) : List GroupSummary :=
  accumCore (fun e => tdk e.timestamp) false (eligDaily tdk since untilD) events

/-- The accumulated monthly summaries of `buildMonthlyReport`: filtered
per event by the day key, grouped by `tmk timestamp` (the month key). -/
def monthlySummaries (tdk tmk : String → String) (since untilD : Option String)
    (events : List TokenUsageEvent) : List GroupSummary :=
  accumCore (fun e => tmk e.timestamp) false (eligDaily tdk since untilD) events

/-- The accumulated session summaries of `buildSessionReport`, keyed by
the trimmed session id, with last-activity tracking. -/
def sessionSummaries (tdk : String → String) (since untilD : Option String)
    (events : List TokenUsageEvent) : List GroupSummary :=
  accumCore sessionKey true (eligSession tdk since untilD) events

/-- The cost loop each builder runs per summary: models with no
resolved pricing are skipped, the rest are priced by
`calculateCostUSD` and summed. -/
def rowCost (pricing : String → Option ModelPricing)
    (models : StrMap ModelUsage) : ℚ :=
  (models.map fun kv =>
    match pricing kv.1 with
    | some p => calculateCostUSD kv.2 p
    | none => 0).sum

/-- The `rowModels` record each builder emits: the accumulated usage
with the model's resolution metadata attached (absent when pricing
lookup yielded nothing). -/
def attachPricing (pricing : String → Option ModelPricing)
    (models : StrMap ModelUsage) : StrMap ModelUsage :=
  models.map fun kv =>
    (kv.1,
      { kv.2 with
        pricingResolution := (pricing kv.1).map (fun p => p.pricingResolution)
        pricingModel := (pricing kv.1).map (fun p => p.pricingModel) })

/-- `DailyReportRow` from `_types.ts`. -/
structure DailyReportRow where
  date : String
  inputTokens : ℕ
  cachedInputTokens : ℕ
  outputTokens : ℕ
  reasoningOutputTokens : ℕ
  totalTokens : ℕ
  costUSD : ℚ
  models : StrMap ModelUsage
deriving DecidableEq, Repr

/-- `MonthlyReportRow` from `_types.ts`. -/
structure MonthlyReportRow where
  month : String
  inputTokens : ℕ
  cachedInputTokens : ℕ
  outputTokens : ℕ
  reasoningOutputTokens : ℕ
  totalTokens : ℕ
  costUSD : ℚ
  models : StrMap ModelUsage
deriving DecidableEq, Repr

/-- `SessionReportRow` from `_types.ts`. -/
structure SessionReportRow where
  sessionId : String
  lastActivity : String
  sessionFile : String
  directory : String
  inputTokens : ℕ
  cachedInputTokens : ℕ
  outputTokens : ℕ
  reasoningOutputTokens : ℕ
  totalTokens : ℕ
  costUSD : ℚ
  models : StrMap ModelUsage
deriving DecidableEq, Repr

/-- `sessionId.lastIndexOf('/')` with the two `slice`s: the part before
the last separator and the part after (no separator: empty directory,
the whole id as file). -/
def splitSessionId (sessionId : String) : String × String :=
  if (sessionId.data.reverse.takeWhile fun c => c ≠ '/').length =
      sessionId.data.length then
    ("", sessionId)
  else
    (⟨sessionId.data.take (sessionId.data.length -
        (sessionId.data.reverse.takeWhile fun c => c ≠ '/').length - 1)⟩,
      ⟨(sessionId.data.reverse.takeWhile fun c => c ≠ '/').reverse⟩)

/-- One output row of `buildDailyReport` from a finalized summary. -/
def mkDailyRow (fmt : String → String) (pricing : String → Option ModelPricing)
    (s : GroupSummary) : DailyReportRow :=
  { date := fmt s.key
    inputTokens := s.inputTokens
    cachedInputTokens := s.cachedInputTokens
    outputTokens := s.outputTokens
    reasoningOutputTokens := s.reasoningOutputTokens
    totalTokens := s.totalTokens
    costUSD := rowCost pricing s.models
    models := attachPricing pricing s.models }

/-- One output row of `buildMonthlyReport` from a finalized summary. -/
def mkMonthlyRow (fmt : String → String) (pricing : String → Option ModelPricing)
    (s : GroupSummary) : MonthlyReportRow :=
  { month := fmt s.key
    inputTokens := s.inputTokens
    cachedInputTokens := s.cachedInputTokens
    outputTokens := s.outputTokens
    reasoningOutputTokens := s.reasoningOutputTokens
    totalTokens := s.totalTokens
    costUSD := rowCost pricing s.models
    models := attachPricing pricing s.models }

/-- One output row of `buildSessionReport` from a finalized summary. -/
def mkSessionRow (pricing : String → Option ModelPricing) (s : GroupSummary) :
    SessionReportRow :=
  let split := splitSessionId s.key
  { sessionId := s.key
    lastActivity := s.lastTimestamp
    sessionFile := split.2
    directory := split.1
    inputTokens := s.inputTokens
    cachedInputTokens := s.cachedInputTokens
    outputTokens := s.outputTokens
    reasoningOutputTokens := s.reasoningOutputTokens
    totalTokens := s.totalTokens
    costUSD := rowCost pricing s.models
    models := attachPricing pricing s.models }

/-- Sort key of the daily / monthly builders:
`a.date.localeCompare(b.date)` / `a.month.localeCompare(b.month)`. -/
def keyLe (a b : GroupSummary) : Prop := strLe a.key b.key = true

instance : DecidableRel keyLe := fun a b => decEq (strLe a.key b.key) true

/-- Sort key of the session builder:
`a.lastTimestamp.localeCompare(b.lastTimestamp)`. -/
def lastLe (a b : GroupSummary) : Prop := strLe a.lastTimestamp b.lastTimestamp = true

instance : DecidableRel lastLe := fun a b => decEq (strLe a.lastTimestamp b.lastTimestamp) true

/-- `buildDailyReport` over an already-resolved pricing mapping
(`modelPricing` in the source; models it misses contribute no cost and
no metadata): accumulate, sort ascending by date key (the JavaScript
sort is stable), emit rows. -/
def buildDailyReport (events : List TokenUsageEvent) (tdk : String → String)
    (fmt : String → String) (since untilD : Option String)
    (pricing : String → Option ModelPricing) : List DailyReportRow :=
  ((dailySummaries tdk since untilD events).insertionSort keyLe).map
    (mkDailyRow fmt pricing)

/-- `buildMonthlyReport`, sorted ascending by month key. -/
def buildMonthlyReport (events : List TokenUsageEvent) (tdk tmk : String → String)
    (fmt : String → String) (since untilD : Option String)
    (pricing : String → Option ModelPricing) : List MonthlyReportRow :=
  ((monthlySummaries tdk tmk since untilD events).insertionSort keyLe).map
    (mkMonthlyRow fmt pricing)

/-- `buildSessionReport`, sorted ascending by last-activity timestamp.
(The source's early return on an empty summary map is the same as
mapping over the empty list.) -/
def buildSessionReport (events : List TokenUsageEvent) (tdk : String → String)
    (since untilD : Option String) (pricing : String → Option ModelPricing) :
    List SessionReportRow :=
  ((sessionSummaries tdk since untilD events).insertionSort lastLe).map
    (mkSessionRow pricing)

/-! ### Accumulator infrastructure -/

/-- The five token counters as one additive tuple. -/
abbrev Totals := ℕ × ℕ × ℕ × ℕ × ℕ

/-- An event's usage delta. -/
def eventTotals (e : TokenUsageEvent) : Totals :=
  (e.inputTokens, e.cachedInputTokens, e.outputTokens, e.reasoningOutputTokens,
    e.totalTokens)

/-- A group summary's running totals. -/
def summaryTotals (s : GroupSummary) : Totals :=
  (s.inputTokens, s.cachedInputTokens, s.outputTokens, s.reasoningOutputTokens,
    s.totalTokens)

/-- A per-model usage's totals. -/
def usageTotals (u : ModelUsage) : Totals :=
  (u.inputTokens, u.cachedInputTokens, u.outputTokens, u.reasoningOutputTokens,
    u.totalTokens)

/-- Sum of the per-model totals of a model map. -/
def modelsTotals (ms : StrMap ModelUsage) : Totals :=
  (ms.map fun kv => usageTotals kv.2).sum

theorem usageTotals_add (u : ModelUsage) (e : TokenUsageEvent) :
    usageTotals (addUsageModel u e) = usageTotals u + eventTotals e := rfl

theorem summaryTotals_add (s : GroupSummary) (e : TokenUsageEvent) :
    summaryTotals (addUsageSummary s e) = summaryTotals s + eventTotals e := rfl

theorem mapGet_eq_none_iff {α : Type} {k : String} {ms : StrMap α} :
    mapGet k ms = none ↔ ∀ p ∈ ms, p.1 ≠ k := by
  induction ms with
  | nil => simp [mapGet]
  | cons p t ih =>
    by_cases h : p.1 = k
    · simp [mapGet, h]
    · simp [mapGet, h, ih]

theorem updateModels_fst (ms : StrMap ModelUsage) (mn : String)
    (e : TokenUsageEvent) :
    (updateModels ms mn e).map Prod.fst =
      match mapGet mn ms with
      | some _ => ms.map Prod.fst
      | none => ms.map Prod.fst ++ [mn] := by
  unfold updateModels
  cases hx : mapGet mn ms with
  | some mu =>
    simp only [List.map_map]
    refine congrArg₂ _ ?_ rfl
    funext kv
    by_cases h : kv.1 = mn <;> simp [Function.comp, h]
  | none => simp

theorem updateModels_nodup {ms : StrMap ModelUsage} {mn : String}
    {e : TokenUsageEvent} (h : (ms.map Prod.fst).Nodup) :
    ((updateModels ms mn e).map Prod.fst).Nodup := by
  rw [updateModels_fst]
  cases hx : mapGet mn ms with
  | some mu => exact h
  | none =>
    rw [List.nodup_append]
    refine ⟨h, List.nodup_singleton _, ?_⟩
    intro a ha hb
    rcases List.mem_map.mp ha with ⟨p, hp, rfl⟩
    rcases List.mem_singleton.mp hb with rfl
    exact (mapGet_eq_none_iff.mp hx p hp) rfl

theorem sum_map_update {ms : StrMap ModelUsage} {mn : String} {mu : ModelUsage}
    (h : (ms.map Prod.fst).Nodup) (hx : mapGet mn ms = some mu)
    (v : ModelUsage) :
    modelsTotals (ms.map fun kv => if kv.1 = mn then (kv.1, v) else kv) +
        usageTotals mu =
      modelsTotals ms + usageTotals v := by
  induction ms with
  | nil => cases hx
  | cons p t ih =>
    rw [List.map_cons, List.nodup_cons] at h
    by_cases hp : p.1 = mn
    · have hmu : p.2 = mu := by
        simpa [mapGet, hp] using hx
      have ht : t.map (fun kv => if kv.1 = mn then (kv.1, v) else kv) = t := by
        have : t.map (fun kv => if kv.1 = mn then (kv.1, v) else kv) = t.map id := by
          apply List.map_congr_left
          intro kv hkv
          have hne : kv.1 ≠ mn := by
            intro hc
            exact h.1 (hp ▸ hc ▸ List.mem_map_of_mem Prod.fst hkv)
          simp [hne]
        rw [this, List.map_id]
      subst hmu
      simp only [List.map_cons, hp, if_pos rfl, ht, modelsTotals, List.sum_cons]
      simp [add_assoc, add_comm, add_left_comm]
    · have hx' : mapGet mn t = some mu := by
        simpa [mapGet, hp] using hx
      have hih := ih h.2 hx'
      simp only [List.map_cons, hp, if_neg hp, if_false, modelsTotals,
        List.sum_cons] at hih ⊢
      have : usageTotals p.2 +
          ((t.map fun kv => if kv.1 = mn then (kv.1, v) else kv).map fun kv =>
            usageTotals kv.2).sum + usageTotals mu =
          usageTotals p.2 +
            (((t.map fun kv => if kv.1 = mn then (kv.1, v) else kv).map fun kv =>
              usageTotals kv.2).sum + usageTotals mu) := by
        rw [add_assoc]
      rw [this, hih]
      rw [add_assoc]

theorem updateModels_sum {ms : StrMap ModelUsage} {mn : String}
    {e : TokenUsageEvent} (h : (ms.map Prod.fst).Nodup) :
    modelsTotals (updateModels ms mn e) = modelsTotals ms + eventTotals e := by
  cases hx : mapGet mn ms with
  | some mu =>
    have hrw : updateModels ms mn e = ms.map fun kv =>
        if kv.1 = mn then
          (kv.1, if e.isFallbackModel then
            { addUsageModel mu e with isFallback := true } else addUsageModel mu e)
        else kv := by
      simp [updateModels, hx]
    have hv : usageTotals (if e.isFallbackModel then
        { addUsageModel mu e with isFallback := true } else addUsageModel mu e) =
        usageTotals mu + eventTotals e := by
      cases e.isFallbackModel <;>
        simp [usageTotals, addUsageModel, eventTotals, Prod.mk_add_mk]
    have hsum := sum_map_update h hx (v := if e.isFallbackModel then
      { addUsageModel mu e with isFallback := true } else addUsageModel mu e)
    rw [hv] at hsum
    rw [hrw]
    have : modelsTotals (ms.map fun kv =>
        if kv.1 = mn then
          (kv.1, if e.isFallbackModel then
            { addUsageModel mu e with isFallback := true } else addUsageModel mu e)
        else kv) + usageTotals mu =
        modelsTotals ms + eventTotals e + usageTotals mu := by
      rw [hsum]
      simp [add_assoc, add_comm, add_left_comm]
    exact add_right_cancel this
  | none =>
    have hrw : updateModels ms mn e = ms ++
        [(mn, if e.isFallbackModel then
          { addUsageModel createEmptyUsage e with isFallback := true }
          else addUsageModel createEmptyUsage e)] := by
      simp [updateModels, hx, createEmptyUsage]
    rw [hrw]
    simp only [modelsTotals, List.map_append, List.sum_append]
    cases e.isFallbackModel <;>
      simp [usageTotals, addUsageModel, createEmptyUsage, eventTotals,
        Prod.mk_add_mk]

theorem applyEvent_key (tl : Bool) (e : TokenUsageEvent) (mn : String)
    (s : GroupSummary) : (applyEvent tl e mn s).key = s.key := by
  simp only [applyEvent]
  split <;> simp [addUsageSummary]

theorem applyEvent_totals (tl : Bool) (e : TokenUsageEvent) (mn : String)
    (s : GroupSummary) :
    summaryTotals (applyEvent tl e mn s) = summaryTotals s + eventTotals e := by
  simp only [applyEvent]
  split <;> simp [addUsageSummary, summaryTotals, eventTotals, Prod.mk_add_mk]

theorem applyEvent_models (tl : Bool) (e : TokenUsageEvent) (mn : String)
    (s : GroupSummary) :
    (applyEvent tl e mn s).models = updateModels s.models mn e := by
  simp only [applyEvent]
  split <;> simp [addUsageSummary]

theorem applyEvent_last (e : TokenUsageEvent) (mn : String) (s : GroupSummary) :
    (applyEvent true e mn s).lastTimestamp =
      if strLt s.lastTimestamp e.timestamp then e.timestamp
      else s.lastTimestamp := by
  simp only [applyEvent]
  by_cases h : strLt s.lastTimestamp e.timestamp = true
  · simp [addUsageSummary, h]
  · simp only [Bool.not_eq_true] at h
    simp [addUsageSummary, h]

theorem applyEvent_last_false (e : TokenUsageEvent) (mn : String)
    (s : GroupSummary) :
    (applyEvent false e mn s).lastTimestamp = s.lastTimestamp := by
  simp [applyEvent, addUsageSummary]

/-- Well-formedness maintained by the accumulation loop: group keys are
unique and so are the model keys inside each summary (the `Map`
invariants of the source). -/
def accWF (acc : List GroupSummary) : Prop :=
  ((acc.map fun s => s.key).Nodup) ∧
    ∀ s ∈ acc, (s.models.map Prod.fst).Nodup

theorem accWF_nil : accWF [] := ⟨List.nodup_nil, by intro s h; cases h⟩

theorem stepCore_eq_none {gk : TokenUsageEvent → String} {tl : Bool}
    {elig : TokenUsageEvent → Option String} {acc : List GroupSummary}
    {e : TokenUsageEvent} (he : elig e = none) :
    stepCore gk tl elig acc e = acc := by
  unfold stepCore
  rw [he]

theorem stepCore_eq_found {gk : TokenUsageEvent → String} {tl : Bool}
    {elig : TokenUsageEvent → Option String} {acc : List GroupSummary}
    {e : TokenUsageEvent} {mn : String} {s₀ : GroupSummary}
    (he : elig e = some mn)
    (hf : acc.find? (fun s => s.key = gk e) = some s₀) :
    stepCore gk tl elig acc e =
      acc.map fun s => if s.key = gk e then applyEvent tl e mn s else s := by
  unfold stepCore
  rw [he]
  simp only [hf]

theorem stepCore_eq_new {gk : TokenUsageEvent → String} {tl : Bool}
    {elig : TokenUsageEvent → Option String} {acc : List GroupSummary}
    {e : TokenUsageEvent} {mn : String}
    (he : elig e = some mn)
    (hf : acc.find? (fun s => s.key = gk e) = none) :
    stepCore gk tl elig acc e =
      acc ++ [applyEvent tl e mn (createSummary (gk e) e.timestamp)] := by
  unfold stepCore
  rw [he]
  simp only [hf]

theorem find?_map_key_preserving {f : GroupSummary → GroupSummary}
    (hf : ∀ s, (f s).key = s.key) (acc : List GroupSummary) (k : String) :
    (acc.map f).find? (fun s => s.key = k) =
      (acc.find? (fun s => s.key = k)).map f := by
  induction acc with
  | nil => rfl
  | cons s t ih =>
    by_cases h : s.key = k
    · simp [List.find?_cons, hf, h]
    · simp [List.find?_cons, hf, h, ih]

theorem stepCore_update_key_preserving (tl : Bool) (e : TokenUsageEvent)
    (mn : String) (k' : String) :
    ∀ s : GroupSummary,
      ((if s.key = k' then applyEvent tl e mn s else s)).key = s.key := by
  intro s
  by_cases hs : s.key = k' <;> simp [hs, applyEvent_key]

theorem stepCore_keys {gk : TokenUsageEvent → String} {tl : Bool}
    {elig : TokenUsageEvent → Option String} (acc : List GroupSummary)
    (e : TokenUsageEvent) :
    (stepCore gk tl elig acc e).map (fun s => s.key) = acc.map (fun s => s.key) ∨
      (stepCore gk tl elig acc e).map (fun s => s.key) =
        (acc.map fun s => s.key) ++ [gk e] := by
  cases he : elig e with
  | none => left; rw [stepCore_eq_none he]
  | some mn =>
    cases hf : acc.find? (fun s => s.key = gk e) with
    | some s₀ =>
      left
      rw [stepCore_eq_found he hf, List.map_map]
      apply List.map_congr_left
      intro s _
      exact stepCore_update_key_preserving tl e mn (gk e) s
    | none =>
      right
      rw [stepCore_eq_new he hf]
      simp [applyEvent_key, createSummary]

theorem stepCore_wf {gk : TokenUsageEvent → String} {tl : Bool}
    {elig : TokenUsageEvent → Option String} {acc : List GroupSummary}
    {e : TokenUsageEvent} (h : accWF acc) : accWF (stepCore gk tl elig acc e) := by
  cases he : elig e with
  | none => rw [stepCore_eq_none he]; exact h
  | some mn =>
    cases hf : acc.find? (fun s => s.key = gk e) with
    | some s₀ =>
      rw [stepCore_eq_found he hf]
      constructor
      · rw [List.map_map]
        have : (acc.map ((fun s => s.key) ∘
            fun s => if s.key = gk e then applyEvent tl e mn s else s)) =
            acc.map fun s => s.key := by
          apply List.map_congr_left
          intro s _
          exact stepCore_update_key_preserving tl e mn (gk e) s
        rw [this]
        exact h.1
      · intro s hs
        rcases List.mem_map.mp hs with ⟨s₁, hs₁, rfl⟩
        by_cases hk : s₁.key = gk e
        · rw [if_pos hk, applyEvent_models]
          exact updateModels_nodup (h.2 s₁ hs₁)
        · rw [if_neg hk]
          exact h.2 s₁ hs₁
    | none =>
      rw [stepCore_eq_new he hf]
      constructor
      · rw [List.map_append]
        rw [List.nodup_append]
        refine ⟨h.1, by simp, ?_⟩
        intro a ha hb
        rcases List.mem_map.mp ha with ⟨s, hs, rfl⟩
        have hb' : s.key = (applyEvent tl e mn (createSummary (gk e) e.timestamp)).key := by
          simpa using hb
        rw [applyEvent_key] at hb'
        have := List.find?_eq_none.mp hf s hs
        simp only [decide_eq_true_eq] at this
        exact this hb'
      · intro s hs
        rcases List.mem_append.mp hs with hs' | hs'
        · exact h.2 s hs'
        · have : s = applyEvent tl e mn (createSummary (gk e) e.timestamp) := by
            simpa using hs'
          rw [this, applyEvent_models]
          exact updateModels_nodup (by simp [createSummary])

theorem accumCore_wf (gk : TokenUsageEvent → String) (tl : Bool)
    (elig : TokenUsageEvent → Option String) (events : List TokenUsageEvent) :
    accWF (accumCore gk tl elig events) := by
  unfold accumCore
  induction events using List.reverseRecOn with
  | nil => exact accWF_nil
  | append_singleton l e ih =>
    rw [List.foldl_append, List.foldl_cons, List.foldl_nil]
    exact stepCore_wf ih

theorem stepCore_find_ne {gk : TokenUsageEvent → String} {tl : Bool}
    {elig : TokenUsageEvent → Option String} {acc : List GroupSummary}
    {e : TokenUsageEvent} {k : String}
    (h : elig e = none ∨ gk e ≠ k) :
    (stepCore gk tl elig acc e).find? (fun s => s.key = k) =
      acc.find? (fun s => s.key = k) := by
  cases he : elig e with
  | none => rw [stepCore_eq_none he]
  | some mn =>
    have hk : gk e ≠ k := by
      rcases h with h | h
      · rw [he] at h; cases h
      · exact h
    cases hf : acc.find? (fun s => s.key = gk e) with
    | some s₀ =>
      rw [stepCore_eq_found he hf,
        find?_map_key_preserving (stepCore_update_key_preserving tl e mn (gk e))]
      cases hacc : acc.find? (fun s => s.key = k) with
      | none => rfl
      | some s₁ =>
        have hs₁ : s₁.key = k := by
          have := List.find?_some hacc
          simpa using this
        simp only [Option.map_some']
        rw [if_neg (by rw [hs₁]; exact fun hc => hk hc.symm)]
    | none =>
      rw [stepCore_eq_new he hf, List.find?_append]
      cases hacc : acc.find? (fun s => s.key = k) with
      | some s₁ => rfl
      | none =>
        have hnewkey : (applyEvent tl e mn (createSummary (gk e) e.timestamp)).key = gk e := by
          rw [applyEvent_key]; rfl
        simp [List.find?_cons, hnewkey, hk]

theorem stepCore_find_eq {gk : TokenUsageEvent → String} {tl : Bool}
    {elig : TokenUsageEvent → Option String} {acc : List GroupSummary}
    {e : TokenUsageEvent} {k : String} {mn : String}
    (he : elig e = some mn) (hk : gk e = k) :
    (stepCore gk tl elig acc e).find? (fun s => s.key = k) =
      some (applyEvent tl e mn
        ((acc.find? (fun s => s.key = k)).getD (createSummary k e.timestamp))) := by
  subst hk
  cases hf : acc.find? (fun s => s.key = gk e) with
  | some s₀ =>
    rw [stepCore_eq_found he hf,
      find?_map_key_preserving (stepCore_update_key_preserving tl e mn (gk e))]
    rw [hf]
    have hs₀ : s₀.key = gk e := by
      have := List.find?_some hf
      simpa using this
    simp [hs₀]
  | none =>
    rw [stepCore_eq_new he hf, List.find?_append, hf]
    have hnewkey : (applyEvent tl e mn (createSummary (gk e) e.timestamp)).key = gk e := by
      rw [applyEvent_key]; rfl
    simp [List.find?_cons, hnewkey]

theorem lexLt_irrefl (l : List Char) : lexLt l l = false := by
  cases h : lexLt l l with
  | false => rfl
  | true => exact (lexLt_asymm h h).elim

theorem strLt_irrefl (s : String) : strLt s s = false := lexLt_irrefl _

/-- The Boolean "this event lands in group `k`" predicate. -/
def hitsKey (gk : TokenUsageEvent → String) (elig : TokenUsageEvent → Option String)
    (k : String) (e : TokenUsageEvent) : Bool :=
  (elig e).isSome && decide (gk e = k)

theorem accumCore_find_none_iff (gk : TokenUsageEvent → String) (tl : Bool)
    (elig : TokenUsageEvent → Option String) (events : List TokenUsageEvent)
    (k : String) :
    (accumCore gk tl elig events).find? (fun s => s.key = k) = none ↔
      ∀ e ∈ events, hitsKey gk elig k e = false := by
  unfold accumCore
  induction events using List.reverseRecOn with
  | nil => simp
  | append_singleton l e ih =>
    rw [List.foldl_append, List.foldl_cons, List.foldl_nil]
    by_cases hhit : hitsKey gk elig k e = true
    · rcases Bool.and_eq_true_iff.mp hhit with ⟨hsome, hkey⟩
      rcases Option.isSome_iff_exists.mp hsome with ⟨mn, hmn⟩
      have hkey' : gk e = k := of_decide_eq_true hkey
      rw [stepCore_find_eq hmn hkey']
      constructor
      · intro hc; cases hc
      · intro hall
        have := hall e (by simp)
        rw [hhit] at this
        cases this
    · have hhit' : hitsKey gk elig k e = false := by
        cases h : hitsKey gk elig k e
        · rfl
        · exact absurd h hhit
      have hne : elig e = none ∨ gk e ≠ k := by
        unfold hitsKey at hhit'
        rcases Bool.and_eq_false_iff.mp hhit' with h | h
        · left
          cases he : elig e
          · rfl
          · rw [he] at h; cases h
        · right
          intro hc
          rw [hc] at h
          simp at h
      rw [stepCore_find_ne hne, ih]
      constructor
      · intro hall e' he'
        rcases List.mem_append.mp he' with h' | h'
        · exact hall e' h'
        · have : e' = e := by simpa using h'
          rw [this]
          exact hhit'
      · intro hall e' he'
        exact hall e' (List.mem_append.mpr (Or.inl he'))

theorem accumCore_find_totals (gk : TokenUsageEvent → String) (tl : Bool)
    (elig : TokenUsageEvent → Option String) (events : List TokenUsageEvent)
    (k : String) :
    ∀ sm, (accumCore gk tl elig events).find? (fun s => s.key = k) = some sm →
      sm.key = k ∧
        summaryTotals sm =
          ((events.filter (hitsKey gk elig k)).map eventTotals).sum := by
  unfold accumCore
  induction events using List.reverseRecOn with
  | nil => intro sm h; cases h
  | append_singleton l e ih =>
    intro sm h
    rw [List.foldl_append, List.foldl_cons, List.foldl_nil] at h
    by_cases hhit : hitsKey gk elig k e = true
    · rcases Bool.and_eq_true_iff.mp hhit with ⟨hsome, hkey⟩
      rcases Option.isSome_iff_exists.mp hsome with ⟨mn, hmn⟩
      have hkey' : gk e = k := of_decide_eq_true hkey
      rw [stepCore_find_eq hmn hkey'] at h
      have hsm := (Option.some_inj.mp h).symm
      have hfilter : (l ++ [e]).filter (hitsKey gk elig k) =
          l.filter (hitsKey gk elig k) ++ [e] := by
        rw [List.filter_append]
        simp [List.filter_cons, hhit]
      rw [hfilter, List.map_append, List.sum_append]
      simp only [List.map_cons, List.map_nil, List.sum_cons, List.sum_nil]
      cases hf : (List.foldl (stepCore gk tl elig) [] l).find? (fun s => s.key = k) with
      | some sm' =>
        rcases ih sm' hf with ⟨hk', ht'⟩
        rw [hf] at hsm
        simp only [Option.getD_some] at hsm
        constructor
        · rw [hsm, applyEvent_key, hk']
        · rw [hsm, applyEvent_totals, ht']
          simp [add_assoc]
      | none =>
        have hempty : l.filter (hitsKey gk elig k) = [] := by
          rw [List.filter_eq_nil_iff]
          intro e' he'
          have := (accumCore_find_none_iff gk tl elig l k).mp hf e' he'
          simp [this]
        rw [hf] at hsm
        simp only [Option.getD_none] at hsm
        constructor
        · rw [hsm, applyEvent_key]; rfl
        · rw [hsm, applyEvent_totals, hempty]
          simp [summaryTotals, createSummary]
    · have hhit' : hitsKey gk elig k e = false := by
        cases hb : hitsKey gk elig k e
        · rfl
        · exact absurd hb hhit
      have hne : elig e = none ∨ gk e ≠ k := by
        unfold hitsKey at hhit'
        rcases Bool.and_eq_false_iff.mp hhit' with hb | hb
        · left
          cases he : elig e
          · rfl
          · rw [he] at hb; cases hb
        · right
          intro hc
          rw [hc] at hb
          simp at hb
      rw [stepCore_find_ne hne] at h
      rcases ih sm h with ⟨hk', ht'⟩
      refine ⟨hk', ?_⟩
      have hfilter : (l ++ [e]).filter (hitsKey gk elig k) =
          l.filter (hitsKey gk elig k) := by
        rw [List.filter_append]
        simp [List.filter_cons, hhit']
      rw [hfilter]
      exact ht'

theorem accumCore_find_last (gk : TokenUsageEvent → String)
    (elig : TokenUsageEvent → Option String) (events : List TokenUsageEvent)
    (k : String) :
    ∀ sm, (accumCore gk true elig events).find? (fun s => s.key = k) = some sm →
      sm.lastTimestamp ∈
          ((events.filter (hitsKey gk elig k)).map fun e => e.timestamp) ∧
        ∀ t ∈ ((events.filter (hitsKey gk elig k)).map fun e => e.timestamp),
          strLe t sm.lastTimestamp = true := by
  unfold accumCore
  induction events using List.reverseRecOn with
  | nil => intro sm h; cases h
  | append_singleton l e ih =>
    intro sm h
    rw [List.foldl_append, List.foldl_cons, List.foldl_nil] at h
    by_cases hhit : hitsKey gk elig k e = true
    · rcases Bool.and_eq_true_iff.mp hhit with ⟨hsome, hkey⟩
      rcases Option.isSome_iff_exists.mp hsome with ⟨mn, hmn⟩
      have hkey' : gk e = k := of_decide_eq_true hkey
      rw [stepCore_find_eq hmn hkey'] at h
      have hsm := (Option.some_inj.mp h).symm
      have hfilter : (l ++ [e]).filter (hitsKey gk elig k) =
          l.filter (hitsKey gk elig k) ++ [e] := by
        rw [List.filter_append]
        simp [List.filter_cons, hhit]
      rw [hfilter, List.map_append]
      simp only [List.map_cons, List.map_nil]
      cases hf : (List.foldl (stepCore gk true elig) [] l).find? (fun s => s.key = k) with
      | some sm' =>
        rcases ih sm' hf with ⟨hmem, hub⟩
        rw [hf] at hsm
        simp only [Option.getD_some] at hsm
        rw [hsm, applyEvent_last]
        by_cases hlt : strLt sm'.lastTimestamp e.timestamp = true
        · rw [if_pos hlt]
          refine ⟨List.mem_append.mpr (Or.inr (by simp)), ?_⟩
          intro t ht
          rcases List.mem_append.mp ht with ht' | ht'
          · exact strLe_trans (hub t ht') (strLt_le hlt)
          · have : t = e.timestamp := by simpa using ht'
            rw [this]
            exact strLe_refl _
        · have hlt' : strLt sm'.lastTimestamp e.timestamp = false := by
            cases hb : strLt sm'.lastTimestamp e.timestamp
            · rfl
            · exact absurd hb hlt
          rw [if_neg hlt]
          refine ⟨List.mem_append.mpr (Or.inl hmem), ?_⟩
          intro t ht
          rcases List.mem_append.mp ht with ht' | ht'
          · exact hub t ht'
          · have : t = e.timestamp := by simpa using ht'
            rw [this]
            exact strLt_false_le hlt'
      | none =>
        have hempty : l.filter (hitsKey gk elig k) = [] := by
          rw [List.filter_eq_nil_iff]
          intro e' he'
          have := (accumCore_find_none_iff gk true elig l k).mp hf e' he'
          simp [this]
        rw [hf] at hsm
        simp only [Option.getD_none] at hsm
        have hcs : (createSummary k e.timestamp).lastTimestamp = e.timestamp := rfl
        rw [hsm, applyEvent_last, hcs, hempty]
        rw [if_neg (by rw [strLt_irrefl]; simp)]
        constructor
        · simp
        · intro t ht
          have : t = e.timestamp := by simpa using ht
          rw [this]
          exact strLe_refl _
    · have hhit' : hitsKey gk elig k e = false := by
        cases hb : hitsKey gk elig k e
        · rfl
        · exact absurd hb hhit
      have hne : elig e = none ∨ gk e ≠ k := by
        unfold hitsKey at hhit'
        rcases Bool.and_eq_false_iff.mp hhit' with hb | hb
        · left
          cases he : elig e
          · rfl
          · rw [he] at hb; cases hb
        · right
          intro hc
          rw [hc] at hb
          simp at hb
      rw [stepCore_find_ne hne] at h
      rcases ih sm h with ⟨hmem, hub⟩
      have hfilter : (l ++ [e]).filter (hitsKey gk elig k) =
          l.filter (hitsKey gk elig k) := by
        rw [List.filter_append]
        simp [List.filter_cons, hhit']
      rw [hfilter]
      exact ⟨hmem, hub⟩

theorem accumCore_models_totals (gk : TokenUsageEvent → String) (tl : Bool)
    (elig : TokenUsageEvent → Option String) (events : List TokenUsageEvent) :
    ∀ s ∈ accumCore gk tl elig events, summaryTotals s = modelsTotals s.models := by
  unfold accumCore
  induction events using List.reverseRecOn with
  | nil => intro s hs; cases hs
  | append_singleton l e ih =>
    intro s hs
    rw [List.foldl_append, List.foldl_cons, List.foldl_nil] at hs
    have hwf : accWF (List.foldl (stepCore gk tl elig) [] l) :=
      accumCore_wf gk tl elig l
    cases he : elig e with
    | none =>
      rw [stepCore_eq_none he] at hs
      exact ih s hs
    | some mn =>
      cases hf : (List.foldl (stepCore gk tl elig) [] l).find? (fun s => s.key = gk e) with
      | some s₀ =>
        rw [stepCore_eq_found he hf] at hs
        rcases List.mem_map.mp hs with ⟨s₁, hs₁, rfl⟩
        by_cases hk : s₁.key = gk e
        · rw [if_pos hk, applyEvent_totals, applyEvent_models,
            updateModels_sum (hwf.2 s₁ hs₁), ih s₁ hs₁]
        · rw [if_neg hk]
          exact ih s₁ hs₁
      | none =>
        rw [stepCore_eq_new he hf] at hs
        rcases List.mem_append.mp hs with hs' | hs'
        · exact ih s hs'
        · have : s = applyEvent tl e mn (createSummary (gk e) e.timestamp) := by
            simpa using hs'
          rw [this, applyEvent_totals, applyEvent_models,
            updateModels_sum (by simp [createSummary])]
          simp [summaryTotals, createSummary, modelsTotals]

theorem find?_eq_of_mem_keyNodup {S : List GroupSummary}
    (hn : (S.map fun s => s.key).Nodup) {s : GroupSummary} (hs : s ∈ S) :
    S.find? (fun x => x.key = s.key) = some s := by
  induction S with
  | nil => cases hs
  | cons p t ih =>
    rw [List.map_cons, List.nodup_cons] at hn
    rcases List.mem_cons.mp hs with rfl | hs'
    · simp [List.find?_cons]
    · have hne : p.key ≠ s.key := by
        intro hc
        exact hn.1 (hc ▸ List.mem_map_of_mem (fun x => x.key) hs')
      have hdec : decide (p.key = s.key) = false := by simp [hne]
      rw [List.find?_cons, hdec]
      exact ih hn.2 hs'

theorem exists_key_iff_find? {S : List GroupSummary} {k : String} :
    (∃ s ∈ S, s.key = k) ↔ (S.find? (fun s => s.key = k)).isSome := by
  rw [List.find?_isSome]
  simp

theorem map_insertionSort_pair_eq {β : Type} (r : GroupSummary → GroupSummary → Prop)
    [DecidableRel r] (keyf : GroupSummary → String)
    (hr : ∀ a b, r a b ↔ strLe (keyf a) (keyf b) = true)
    (f : GroupSummary → β) (S₁ S₂ : List GroupSummary)
    (hn₁ : (S₁.map keyf).Nodup)
    (hperm : List.Perm (S₁.map fun s => (keyf s, f s)) (S₂.map fun s => (keyf s, f s))) :
    (S₁.insertionSort r).map (fun s => (keyf s, f s)) =
      (S₂.insertionSort r).map (fun s => (keyf s, f s)) := by
  haveI : IsTotal GroupSummary r :=
    ⟨fun a b => by
      rw [hr, hr]
      exact strLe_total (keyf a) (keyf b)⟩
  haveI : IsTrans GroupSummary r :=
    ⟨fun a b c hab hbc =>
      (hr a c).mpr (strLe_trans ((hr a b).mp hab) ((hr b c).mp hbc))⟩
  have hkeys : List.Perm (S₁.map keyf) (S₂.map keyf) := by
    have := hperm.map Prod.fst
    simpa [List.map_map, Function.comp] using this
  have hn₂ : (S₂.map keyf).Nodup := hkeys.nodup_iff.mp hn₁
  have hpermA : List.Perm ((S₁.insertionSort r).map fun s => (keyf s, f s))
      ((S₂.insertionSort r).map fun s => (keyf s, f s)) :=
    ((List.perm_insertionSort r S₁).map _).trans
      (hperm.trans (((List.perm_insertionSort r S₂).map _).symm))
  have sortedStrict : ∀ S : List GroupSummary, (S.map keyf).Nodup →
      ((S.insertionSort r).map (fun s => (keyf s, f s))).Pairwise
        (fun p q => strLt p.1 q.1 = true) := by
    intro S hn
    have hs : (S.insertionSort r).Pairwise r := List.sorted_insertionSort r S
    have hle : ((S.insertionSort r).map (fun s => (keyf s, f s))).Pairwise
        (fun p q => strLe p.1 q.1 = true) :=
      List.Pairwise.map _ (fun a b hab => (hr a b).mp hab) hs
    have hnk : ((S.insertionSort r).map keyf).Nodup :=
      (((List.perm_insertionSort r S).map keyf)).nodup_iff.mpr hn
    have hne : (S.insertionSort r).Pairwise (fun a b => keyf a ≠ keyf b) :=
      (List.pairwise_map).mp hnk
    have hne' : ((S.insertionSort r).map (fun s => (keyf s, f s))).Pairwise
        (fun p q => p.1 ≠ q.1) :=
      List.Pairwise.map _ (fun a b hab => hab) hne
    have hand := hle.and hne'
    exact hand.imp (fun hab => strLe_ne_lt hab.1 hab.2)
  haveI : IsAntisymm (String × β) (fun p q => strLt p.1 q.1 = true) :=
    ⟨fun a b h₁ h₂ => (strLt_asymm h₁ h₂).elim⟩
  exact List.eq_of_perm_of_sorted hpermA (sortedStrict S₁ hn₁) (sortedStrict S₂ hn₂)

theorem map_pair_perm {β : Type} (f : GroupSummary → β) {S₁ S₂ : List GroupSummary}
    (h₁ : (S₁.map fun s => s.key).Nodup) (h₂ : (S₂.map fun s => s.key).Nodup)
    (hmem : ∀ k, (∃ s ∈ S₁, s.key = k) ↔ (∃ s ∈ S₂, s.key = k))
    (hval : ∀ s₁ s₂, s₁ ∈ S₁ → s₂ ∈ S₂ → s₁.key = s₂.key → f s₁ = f s₂) :
    List.Perm (S₁.map fun s => (s.key, f s)) (S₂.map fun s => (s.key, f s)) := by
  have hpn : ∀ (S : List GroupSummary), ((S.map fun s => s.key).Nodup) →
      (S.map fun s => ((s.key, f s) : String × β)).Nodup := by
    intro S hn
    apply List.Nodup.of_map Prod.fst
    have : ((S.map fun s => ((s.key, f s) : String × β)).map Prod.fst) =
        S.map fun s => s.key := by
      simp [List.map_map, Function.comp]
    rw [this]
    exact hn
  rw [List.perm_ext_iff_of_nodup (hpn S₁ h₁) (hpn S₂ h₂)]
  intro p
  simp only [List.mem_map]
  constructor
  · rintro ⟨s₁, hs₁, rfl⟩
    rcases (hmem s₁.key).mp ⟨s₁, hs₁, rfl⟩ with ⟨s₂, hs₂, hk⟩
    exact ⟨s₂, hs₂, by rw [hk, hval s₁ s₂ hs₁ hs₂ hk.symm]⟩
  · rintro ⟨s₂, hs₂, rfl⟩
    rcases (hmem s₂.key).mpr ⟨s₂, hs₂, rfl⟩ with ⟨s₁, hs₁, hk⟩
    exact ⟨s₁, hs₁, by rw [hk, hval s₁ s₂ hs₁ hs₂ hk]⟩

theorem accumCore_mem_key_iff (gk : TokenUsageEvent → String) (tl : Bool)
    (elig : TokenUsageEvent → Option String) (events : List TokenUsageEvent)
    (k : String) :
    (∃ s ∈ accumCore gk tl elig events, s.key = k) ↔
      ∃ e ∈ events, hitsKey gk elig k e = true := by
  rw [exists_key_iff_find?]
  constructor
  · intro h
    by_contra hc
    push_neg at hc
    have hall : ∀ e ∈ events, hitsKey gk elig k e = false := by
      intro e he
      cases hb : hitsKey gk elig k e
      · rfl
      · exact absurd hb (hc e he)
    rw [(accumCore_find_none_iff gk tl elig events k).mpr hall] at h
    cases h
  · intro ⟨e, he, hhit⟩
    cases hf : (accumCore gk tl elig events).find? (fun s => s.key = k) with
    | some s => rfl
    | none =>
      have := (accumCore_find_none_iff gk tl elig events k).mp hf e he
      rw [hhit] at this
      cases this

theorem accumCore_totals_pairs_perm (gk : TokenUsageEvent → String) (tl : Bool)
    (elig : TokenUsageEvent → Option String) {ev₁ ev₂ : List TokenUsageEvent}
    (hp : List.Perm ev₁ ev₂) :
    List.Perm
      ((accumCore gk tl elig ev₁).map fun s => (s.key, summaryTotals s))
      ((accumCore gk tl elig ev₂).map fun s => (s.key, summaryTotals s)) := by
  apply map_pair_perm
  · exact (accumCore_wf gk tl elig ev₁).1
  · exact (accumCore_wf gk tl elig ev₂).1
  · intro k
    rw [accumCore_mem_key_iff, accumCore_mem_key_iff]
    constructor
    · rintro ⟨e, he, hh⟩; exact ⟨e, hp.mem_iff.mp he, hh⟩
    · rintro ⟨e, he, hh⟩; exact ⟨e, hp.mem_iff.mpr he, hh⟩
  · intro s₁ s₂ hs₁ hs₂ hk
    have hf₁ := find?_eq_of_mem_keyNodup (accumCore_wf gk tl elig ev₁).1 hs₁
    have hf₂ := find?_eq_of_mem_keyNodup (accumCore_wf gk tl elig ev₂).1 hs₂
    rw [← hk] at hf₂
    rcases accumCore_find_totals gk tl elig ev₁ s₁.key s₁ hf₁ with ⟨_, ht₁⟩
    rcases accumCore_find_totals gk tl elig ev₂ s₁.key s₂ hf₂ with ⟨_, ht₂⟩
    rw [ht₁, ht₂]
    exact ((hp.filter _).map eventTotals).sum_eq

theorem accumCore_session_pairs_perm (gk : TokenUsageEvent → String)
    (elig : TokenUsageEvent → Option String) {ev₁ ev₂ : List TokenUsageEvent}
    (hp : List.Perm ev₁ ev₂) :
    List.Perm
      ((accumCore gk true elig ev₁).map
        fun s => (s.key, s.lastTimestamp, summaryTotals s))
      ((accumCore gk true elig ev₂).map
        fun s => (s.key, s.lastTimestamp, summaryTotals s)) := by
  apply map_pair_perm (f := fun s => (s.lastTimestamp, summaryTotals s))
  · exact (accumCore_wf gk true elig ev₁).1
  · exact (accumCore_wf gk true elig ev₂).1
  · intro k
    rw [accumCore_mem_key_iff, accumCore_mem_key_iff]
    constructor
    · rintro ⟨e, he, hh⟩; exact ⟨e, hp.mem_iff.mp he, hh⟩
    · rintro ⟨e, he, hh⟩; exact ⟨e, hp.mem_iff.mpr he, hh⟩
  · intro s₁ s₂ hs₁ hs₂ hk
    have hf₁ := find?_eq_of_mem_keyNodup (accumCore_wf gk true elig ev₁).1 hs₁
    have hf₂ := find?_eq_of_mem_keyNodup (accumCore_wf gk true elig ev₂).1 hs₂
    rw [← hk] at hf₂
    rcases accumCore_find_totals gk true elig ev₁ s₁.key s₁ hf₁ with ⟨_, ht₁⟩
    rcases accumCore_find_totals gk true elig ev₂ s₁.key s₂ hf₂ with ⟨_, ht₂⟩
    rcases accumCore_find_last gk elig ev₁ s₁.key s₁ hf₁ with ⟨hm₁, hub₁⟩
    rcases accumCore_find_last gk elig ev₂ s₁.key s₂ hf₂ with ⟨hm₂, hub₂⟩
    have htsperm : List.Perm
        ((ev₁.filter (hitsKey gk elig s₁.key)).map fun e => e.timestamp)
        ((ev₂.filter (hitsKey gk elig s₁.key)).map fun e => e.timestamp) :=
      (hp.filter _).map _
    have hlast : s₁.lastTimestamp = s₂.lastTimestamp := by
      apply strLe_antisymm
      · exact hub₂ s₁.lastTimestamp (htsperm.mem_iff.mp hm₁)
      · exact hub₁ s₂.lastTimestamp (htsperm.mem_iff.mpr hm₂)
    have hsum : ((ev₁.filter (hitsKey gk elig s₁.key)).map eventTotals).sum =
        ((ev₂.filter (hitsKey gk elig s₁.key)).map eventTotals).sum :=
      ((hp.filter _).map eventTotals).sum_eq
    rw [hlast, ht₁, ht₂, hsum]

theorem strData_append (a b : String) : (a ++ b).data = a.data ++ b.data := rfl

theorem dropWhile_head_not {p : Char → Bool} :
    ∀ {l : List Char} {a : Char} {t : List Char},
      l.dropWhile p = a :: t → p a = false := by
  intro l
  induction l with
  | nil => intro a t h; cases h
  | cons c cs ih =>
    intro a t h
    rw [List.dropWhile_cons] at h
    by_cases hc : p c = true
    · rw [if_pos hc] at h
      exact ih h
    · rw [if_neg hc] at h
      rw [List.cons.injEq] at h
      rcases h with ⟨rfl, rfl⟩
      cases hb : p c
      · rfl
      · exact absurd hb hc

theorem splitSessionId_no_slash {s : String} (h : '/' ∉ s.data) :
    splitSessionId s = ("", s) := by
  unfold splitSessionId
  have hall : ∀ c ∈ s.data.reverse, (decide (c ≠ '/')) = true := by
    intro c hc
    have : c ∈ s.data := List.mem_reverse.mp hc
    simp only [decide_eq_true_eq]
    intro hc'
    exact h (hc' ▸ this)
  have hdrop : s.data.reverse.dropWhile (fun c => decide (c ≠ '/')) = [] :=
    List.dropWhile_eq_nil_iff.mpr hall
  have htake : s.data.reverse.takeWhile (fun c => decide (c ≠ '/')) = s.data.reverse := by
    have hsplit := List.takeWhile_append_dropWhile
      (p := fun c => decide (c ≠ '/')) (l := s.data.reverse)
    rw [hdrop, List.append_nil] at hsplit
    exact hsplit
  rw [htake]
  simp [List.length_reverse]

theorem splitSessionId_slash {s : String} (h : '/' ∈ s.data) :
    s.data = (splitSessionId s).1.data ++ '/' :: (splitSessionId s).2.data ∧
      '/' ∉ (splitSessionId s).2.data := by
  have hsplit : s.data.reverse.takeWhile (fun c => decide (c ≠ '/')) ++
      s.data.reverse.dropWhile (fun c => decide (c ≠ '/')) = s.data.reverse :=
    List.takeWhile_append_dropWhile _ _
  have hdne : s.data.reverse.dropWhile (fun c => decide (c ≠ '/')) ≠ [] := by
    intro hnil
    have hall := List.dropWhile_eq_nil_iff.mp hnil
    have := hall '/' (List.mem_reverse.mpr h)
    simp at this
  rcases List.exists_cons_of_ne_nil hdne with ⟨a, d', hcons⟩
  have ha : a = '/' := by
    have := dropWhile_head_not hcons
    simpa using this
  subst ha
  have hrev : s.data.reverse =
      s.data.reverse.takeWhile (fun c => decide (c ≠ '/')) ++ '/' :: d' := by
    conv_lhs => rw [← hsplit, hcons]
  have hdata : s.data = d'.reverse ++ '/' ::
      (s.data.reverse.takeWhile (fun c => decide (c ≠ '/'))).reverse := by
    have h1 := congrArg List.reverse hrev
    rw [List.reverse_reverse] at h1
    conv_lhs => rw [h1]
    rw [List.reverse_append, List.reverse_cons]
    simp
  have hlen : s.data.length =
      d'.length + 1 +
        (s.data.reverse.takeWhile (fun c => decide (c ≠ '/'))).length := by
    conv_lhs => rw [hdata]
    simp [List.length_append]
    omega
  have hcond : ¬ ((s.data.reverse.takeWhile (fun c => decide (c ≠ '/'))).length =
      s.data.length) := by
    omega
  have hsp : splitSessionId s =
      (⟨s.data.take (s.data.length -
          (s.data.reverse.takeWhile (fun c => decide (c ≠ '/'))).length - 1)⟩,
        ⟨(s.data.reverse.takeWhile (fun c => decide (c ≠ '/'))).reverse⟩) := by
    unfold splitSessionId
    rw [if_neg hcond]
  have htake : s.data.take (s.data.length -
      (s.data.reverse.takeWhile (fun c => decide (c ≠ '/'))).length - 1) =
      d'.reverse := by
    have hn : s.data.length -
        (s.data.reverse.takeWhile (fun c => decide (c ≠ '/'))).length - 1 =
        d'.reverse.length := by
      simp only [List.length_reverse]
      omega
    rw [hn]
    conv_lhs => rw [hdata]
    exact List.take_left _ _
  constructor
  · rw [hsp]
    show s.data = s.data.take (s.data.length -
        (s.data.reverse.takeWhile (fun c => decide (c ≠ '/'))).length - 1) ++
      '/' :: (s.data.reverse.takeWhile (fun c => decide (c ≠ '/'))).reverse
    rw [htake]
    exact hdata
  · rw [hsp]
    show ¬ '/' ∈ (s.data.reverse.takeWhile (fun c => decide (c ≠ '/'))).reverse
    intro hc
    have hc' : '/' ∈ s.data.reverse.takeWhile (fun c => decide (c ≠ '/')) :=
      List.mem_reverse.mp hc
    have := List.mem_takeWhile_imp hc'
    simp at this

/-- Lift a data-level split back to string concatenation. -/
theorem string_eq_of_split {s dir file : String}
    (h : s.data = dir.data ++ '/' :: file.data) : s = dir ++ "/" ++ file := by
  apply string_data_eq
  show s.data = ((dir ++ "/") ++ file).data
  rw [strData_append, strData_append, List.append_assoc]
  exact h

theorem attach_usage_sums (pricing : String → Option ModelPricing)
    (ms : StrMap ModelUsage) :
    ((attachPricing pricing ms).map fun kv => usageTotals kv.2) =
      ms.map fun kv => usageTotals kv.2 := by
  unfold attachPricing
  rw [List.map_map]
  apply List.map_congr_left
  intro kv _
  rfl

theorem rowCost_attach (pricing : String → Option ModelPricing)
    (ms : StrMap ModelUsage) :
    rowCost pricing (attachPricing pricing ms) = rowCost pricing ms := by
  unfold rowCost attachPricing
  rw [List.map_map]
  apply congrArg List.sum
  apply List.map_congr_left
  intro kv _
  cases hp : pricing kv.1 <;> simp only [Function.comp, hp] <;> rfl

/-- First row of a daily report (a total stand-in for `rows[0]`). -/
def firstDailyRow (l : List DailyReportRow) : DailyReportRow :=
  match l with
  | [] => mkDailyRow id (fun _ => none) (createSummary "" "")
  | r :: _ => r

/-- First row of a session report. -/
def firstSessionRow (l : List SessionReportRow) : SessionReportRow :=
  match l with
  | [] => mkSessionRow (fun _ => none) (createSummary "" "")
  | r :: _ => r

/-- Concrete usage event used by witnesses. -/
def evWitness : TokenUsageEvent :=
  { timestamp := "t2", sessionId := some "d/f", model := some "m",
    inputTokens := 3, cachedInputTokens := 1, outputTokens := 2,
    reasoningOutputTokens := 1, totalTokens := 5 }

/-- C10: in every emitted row of every granularity, each group-level
token total equals the sum of the corresponding per-model usage fields,
because every accumulated event is added both to the group summary and
to exactly one per-model sub-total. -/
theorem report_row_totals_eq_model_sums :
    (∀ events tdk fmt since untilD pricing row,
      row ∈ buildDailyReport events tdk fmt since untilD pricing →
      (row.inputTokens, row.cachedInputTokens, row.outputTokens,
        row.reasoningOutputTokens, row.totalTokens) =
        (row.models.map fun kv => usageTotals kv.2).sum) ∧
    (∀ events tdk tmk fmt since untilD pricing row,
      row ∈ buildMonthlyReport events tdk tmk fmt since untilD pricing →
      (row.inputTokens, row.cachedInputTokens, row.outputTokens,
        row.reasoningOutputTokens, row.totalTokens) =
        (row.models.map fun kv => usageTotals kv.2).sum) ∧
    (∀ events tdk since untilD pricing row,
      row ∈ buildSessionReport events tdk since untilD pricing →
      (row.inputTokens, row.cachedInputTokens, row.outputTokens,
        row.reasoningOutputTokens, row.totalTokens) =
        (row.models.map fun kv => usageTotals kv.2).sum) := by
  refine ⟨?_, ?_, ?_⟩
  · intro events tdk fmt since untilD pricing row hrow
    unfold buildDailyReport at hrow
    rcases List.mem_map.mp hrow with ⟨s, hs, rfl⟩
    have hsS : s ∈ dailySummaries tdk since untilD events :=
      (List.perm_insertionSort keyLe _).mem_iff.mp hs
    have hinv := accumCore_models_totals (fun e => tdk e.timestamp) false
      (eligDaily tdk since untilD) events s hsS
    show summaryTotals s =
      ((attachPricing pricing s.models).map fun kv => usageTotals kv.2).sum
    rw [attach_usage_sums]
    exact hinv
  · intro events tdk tmk fmt since untilD pricing row hrow
    unfold buildMonthlyReport at hrow
    rcases List.mem_map.mp hrow with ⟨s, hs, rfl⟩
    have hsS : s ∈ monthlySummaries tdk tmk since untilD events :=
      (List.perm_insertionSort keyLe _).mem_iff.mp hs
    have hinv := accumCore_models_totals (fun e => tmk e.timestamp) false
      (eligDaily tdk since untilD) events s hsS
    show summaryTotals s =
      ((attachPricing pricing s.models).map fun kv => usageTotals kv.2).sum
    rw [attach_usage_sums]
    exact hinv
  · intro events tdk since untilD pricing row hrow
    unfold buildSessionReport at hrow
    rcases List.mem_map.mp hrow with ⟨s, hs, rfl⟩
    have hsS : s ∈ sessionSummaries tdk since untilD events :=
      (List.perm_insertionSort lastLe _).mem_iff.mp hs
    have hinv := accumCore_models_totals sessionKey true
      (eligSession tdk since untilD) events s hsS
    show summaryTotals s =
      ((attachPricing pricing s.models).map fun kv => usageTotals kv.2).sum
    rw [attach_usage_sums]
    exact hinv

theorem report_row_totals_eq_model_sums_witness :
    ((firstDailyRow (buildDailyReport [evWitness] (fun x => x) id none none
        (fun _ => none))).inputTokens,
      (firstDailyRow (buildDailyReport [evWitness] (fun x => x) id none none
        (fun _ => none))).cachedInputTokens,
      (firstDailyRow (buildDailyReport [evWitness] (fun x => x) id none none
        (fun _ => none))).outputTokens,
      (firstDailyRow (buildDailyReport [evWitness] (fun x => x) id none none
        (fun _ => none))).reasoningOutputTokens,
      (firstDailyRow (buildDailyReport [evWitness] (fun x => x) id none none
        (fun _ => none))).totalTokens) =
      ((firstDailyRow (buildDailyReport [evWitness] (fun x => x) id none none
        (fun _ => none))).models.map fun kv => usageTotals kv.2).sum :=
  report_row_totals_eq_model_sums.1 [evWitness] (fun x => x) id none none
    (fun _ => none) _ (List.mem_cons_self _ _)

theorem sorted_rows_key {S : List GroupSummary}
    (r : GroupSummary → GroupSummary → Prop) [DecidableRel r]
    (keyf : GroupSummary → String)
    (hr : ∀ a b, r a b ↔ strLe (keyf a) (keyf b) = true) :
    ((S.insertionSort r).map keyf).Pairwise (fun a b => strLe a b = true) := by
  haveI : IsTotal GroupSummary r :=
    ⟨fun a b => by rw [hr, hr]; exact strLe_total (keyf a) (keyf b)⟩
  haveI : IsTrans GroupSummary r :=
    ⟨fun a b c hab hbc =>
      (hr a c).mpr (strLe_trans ((hr a b).mp hab) ((hr b c).mp hbc))⟩
  have hs : (S.insertionSort r).Pairwise r := List.sorted_insertionSort r S
  exact List.Pairwise.map keyf (fun a b hab => (hr a b).mp hab) hs

/-- C9: daily and monthly rows are emitted in ascending group-key order
(shown with the identity display formatter, so the emitted label is the
raw key), session rows in ascending last-activity order; and each
session row splits its session id at the last `/` into directory and
file, the file part containing no further `/`, with an empty directory
when the id has no `/` at all. -/
theorem report_rows_sorted_and_session_split :
    (∀ events tdk since untilD pricing,
      ((buildDailyReport events tdk id since untilD pricing).map
        fun r => r.date).Pairwise (fun a b => strLe a b = true)) ∧
    (∀ events tdk tmk since untilD pricing,
      ((buildMonthlyReport events tdk tmk id since untilD pricing).map
        fun r => r.month).Pairwise (fun a b => strLe a b = true)) ∧
    (∀ events tdk since untilD pricing,
      ((buildSessionReport events tdk since untilD pricing).map
        fun r => r.lastActivity).Pairwise (fun a b => strLe a b = true)) ∧
    (∀ events tdk since untilD pricing row,
      row ∈ buildSessionReport events tdk since untilD pricing →
      ('/' ∉ row.sessionId.data →
        row.directory = "" ∧ row.sessionFile = row.sessionId) ∧
      ('/' ∈ row.sessionId.data →
        row.sessionId = row.directory ++ "/" ++ row.sessionFile ∧
          '/' ∉ row.sessionFile.data)) := by
  refine ⟨?_, ?_, ?_, ?_⟩
  · intro events tdk since untilD pricing
    unfold buildDailyReport
    rw [List.map_map]
    have : ((dailySummaries tdk since untilD events).insertionSort keyLe).map
        ((fun r => r.date) ∘ mkDailyRow id pricing) =
        ((dailySummaries tdk since untilD events).insertionSort keyLe).map
          (fun s => s.key) := by
      apply List.map_congr_left
      intro s _
      rfl
    rw [this]
    exact sorted_rows_key keyLe (fun s => s.key) (fun a b => Iff.rfl)
  · intro events tdk tmk since untilD pricing
    unfold buildMonthlyReport
    rw [List.map_map]
    have : ((monthlySummaries tdk tmk since untilD events).insertionSort keyLe).map
        ((fun r => r.month) ∘ mkMonthlyRow id pricing) =
        ((monthlySummaries tdk tmk since untilD events).insertionSort keyLe).map
          (fun s => s.key) := by
      apply List.map_congr_left
      intro s _
      rfl
    rw [this]
    exact sorted_rows_key keyLe (fun s => s.key) (fun a b => Iff.rfl)
  · intro events tdk since untilD pricing
    unfold buildSessionReport
    rw [List.map_map]
    have : ((sessionSummaries tdk since untilD events).insertionSort lastLe).map
        ((fun r => r.lastActivity) ∘ mkSessionRow pricing) =
        ((sessionSummaries tdk since untilD events).insertionSort lastLe).map
          (fun s => s.lastTimestamp) := by
      apply List.map_congr_left
      intro s _
      rfl
    rw [this]
    exact sorted_rows_key lastLe (fun s => s.lastTimestamp) (fun a b => Iff.rfl)
  · intro events tdk since untilD pricing row hrow
    unfold buildSessionReport at hrow
    rcases List.mem_map.mp hrow with ⟨s, _, rfl⟩
    constructor
    · intro hno
      have hsp := splitSessionId_no_slash (s := s.key) hno
      constructor
      · show (splitSessionId s.key).1 = ""
        rw [hsp]
      · show (splitSessionId s.key).2 = s.key
        rw [hsp]
    · intro hyes
      rcases splitSessionId_slash (s := s.key) hyes with ⟨hdata, hfile⟩
      constructor
      · exact string_eq_of_split hdata
      · exact hfile

theorem report_rows_sorted_and_session_split_witness :
    ('/' ∉ (firstSessionRow (buildSessionReport [evWitness] (fun x => x) none none
        (fun _ => none))).sessionId.data →
      (firstSessionRow (buildSessionReport [evWitness] (fun x => x) none none
        (fun _ => none))).directory = "" ∧
      (firstSessionRow (buildSessionReport [evWitness] (fun x => x) none none
        (fun _ => none))).sessionFile =
        (firstSessionRow (buildSessionReport [evWitness] (fun x => x) none none
          (fun _ => none))).sessionId) ∧
    ('/' ∈ (firstSessionRow (buildSessionReport [evWitness] (fun x => x) none none
        (fun _ => none))).sessionId.data →
      (firstSessionRow (buildSessionReport [evWitness] (fun x => x) none none
        (fun _ => none))).sessionId =
        (firstSessionRow (buildSessionReport [evWitness] (fun x => x) none none
          (fun _ => none))).directory ++ "/" ++
          (firstSessionRow (buildSessionReport [evWitness] (fun x => x) none none
            (fun _ => none))).sessionFile ∧
      '/' ∉ (firstSessionRow (buildSessionReport [evWitness] (fun x => x) none none
        (fun _ => none))).sessionFile.data) :=
  report_rows_sorted_and_session_split.2.2.2 [evWitness] (fun x => x) none none
    (fun _ => none) _ (List.mem_cons_self _ _)

/-- The observable content of a daily row named by the claim: group key
and the five token sums. -/
def dailyRowKeyTotals (r : DailyReportRow) : String × Totals :=
  (r.date, (r.inputTokens, r.cachedInputTokens, r.outputTokens,
    r.reasoningOutputTokens, r.totalTokens))

/-- The observable content of a monthly row named by the claim. -/
def monthlyRowKeyTotals (r : MonthlyReportRow) : String × Totals :=
  (r.month, (r.inputTokens, r.cachedInputTokens, r.outputTokens,
    r.reasoningOutputTokens, r.totalTokens))

/-- The observable content of a session row named by the claim: session
id, last activity, and the five token sums. -/
def sessionRowKeyTotals (r : SessionReportRow) : String × String × Totals :=
  (r.sessionId, r.lastActivity, (r.inputTokens, r.cachedInputTokens,
    r.outputTokens, r.reasoningOutputTokens, r.totalTokens))

/-- C4 (amended): reordering the input events never changes the daily or
monthly report's row sequence (key and token sums); for session reports
it never changes the rows as a multiset nor any session's last-activity
timestamp (which is the maximum timestamp over the session's accumulated
events), and it cannot change the row order unless two sessions share
the same last-activity timestamp — with pairwise-distinct last-activity
timestamps the session row sequence is also invariant. -/
theorem report_perm_invariance :
    (∀ ev₁ ev₂ tdk fmt since untilD pricing, List.Perm ev₁ ev₂ →
      (buildDailyReport ev₁ tdk fmt since untilD pricing).map dailyRowKeyTotals =
        (buildDailyReport ev₂ tdk fmt since untilD pricing).map dailyRowKeyTotals) ∧
    (∀ ev₁ ev₂ tdk tmk fmt since untilD pricing, List.Perm ev₁ ev₂ →
      (buildMonthlyReport ev₁ tdk tmk fmt since untilD pricing).map
          monthlyRowKeyTotals =
        (buildMonthlyReport ev₂ tdk tmk fmt since untilD pricing).map
          monthlyRowKeyTotals) ∧
    (∀ ev₁ ev₂ tdk since untilD pricing, List.Perm ev₁ ev₂ →
      List.Perm
        ((buildSessionReport ev₁ tdk since untilD pricing).map sessionRowKeyTotals)
        ((buildSessionReport ev₂ tdk since untilD pricing).map sessionRowKeyTotals)) ∧
    (∀ ev₁ ev₂ tdk since untilD pricing, List.Perm ev₁ ev₂ →
      (((buildSessionReport ev₁ tdk since untilD pricing).map
        fun r => r.lastActivity).Nodup) →
      (buildSessionReport ev₁ tdk since untilD pricing).map sessionRowKeyTotals =
        (buildSessionReport ev₂ tdk since untilD pricing).map sessionRowKeyTotals) ∧
    (∀ events tdk since untilD pricing row,
      row ∈ buildSessionReport events tdk since untilD pricing →
      row.lastActivity ∈
          ((events.filter (hitsKey sessionKey (eligSession tdk since untilD)
            row.sessionId)).map fun e => e.timestamp) ∧
        ∀ t ∈ ((events.filter (hitsKey sessionKey (eligSession tdk since untilD)
            row.sessionId)).map fun e => e.timestamp),
          strLe t row.lastActivity = true) := by
  have hdailyProj : ∀ (S : List GroupSummary) fmt
      (pricing : String → Option ModelPricing),
      (S.map (dailyRowKeyTotals ∘ mkDailyRow fmt pricing)) =
        (S.map fun s => (s.key, summaryTotals s)).map fun p => (fmt p.1, p.2) := by
    intro S fmt pricing
    rw [List.map_map]
    apply List.map_congr_left
    intro s _
    rfl
  have hmonthlyProj : ∀ (S : List GroupSummary) fmt
      (pricing : String → Option ModelPricing),
      (S.map (monthlyRowKeyTotals ∘ mkMonthlyRow fmt pricing)) =
        (S.map fun s => (s.key, summaryTotals s)).map fun p => (fmt p.1, p.2) := by
    intro S fmt pricing
    rw [List.map_map]
    apply List.map_congr_left
    intro s _
    rfl
  have hsessProj : ∀ (S : List GroupSummary)
      (pricing : String → Option ModelPricing),
      (S.map (sessionRowKeyTotals ∘ mkSessionRow pricing)) =
        S.map fun s => (s.key, s.lastTimestamp, summaryTotals s) := by
    intro S pricing
    apply List.map_congr_left
    intro s _
    rfl
  refine ⟨?_, ?_, ?_, ?_, ?_⟩
  · intro ev₁ ev₂ tdk fmt since untilD pricing hp
    unfold buildDailyReport dailySummaries
    rw [List.map_map, List.map_map, hdailyProj, hdailyProj]
    apply congrArg
    exact map_insertionSort_pair_eq keyLe (fun s => s.key) (fun a b => Iff.rfl)
      summaryTotals _ _ (accumCore_wf _ _ _ ev₁).1
      (accumCore_totals_pairs_perm _ _ _ hp)
  · intro ev₁ ev₂ tdk tmk fmt since untilD pricing hp
    unfold buildMonthlyReport monthlySummaries
    rw [List.map_map, List.map_map, hmonthlyProj, hmonthlyProj]
    apply congrArg
    exact map_insertionSort_pair_eq keyLe (fun s => s.key) (fun a b => Iff.rfl)
      summaryTotals _ _ (accumCore_wf _ _ _ ev₁).1
      (accumCore_totals_pairs_perm _ _ _ hp)
  · intro ev₁ ev₂ tdk since untilD pricing hp
    unfold buildSessionReport sessionSummaries
    rw [List.map_map, List.map_map, hsessProj, hsessProj]
    refine (((List.perm_insertionSort lastLe _).map _).trans ?_).trans
      (((List.perm_insertionSort lastLe _).map _).symm)
    exact accumCore_session_pairs_perm _ _ hp
  · intro ev₁ ev₂ tdk since untilD pricing hp hn
    have hlastmap : ∀ (ev : List TokenUsageEvent),
        ((buildSessionReport ev tdk since untilD pricing).map
          fun r => r.lastActivity) =
          ((sessionSummaries tdk since untilD ev).insertionSort lastLe).map
            fun s => s.lastTimestamp := by
      intro ev
      unfold buildSessionReport
      rw [List.map_map]
      apply List.map_congr_left
      intro s _
      rfl
    rw [hlastmap] at hn
    have hnS : ((sessionSummaries tdk since untilD ev₁).map
        fun s => s.lastTimestamp).Nodup :=
      (((List.perm_insertionSort lastLe _).map
        (fun s => s.lastTimestamp)).nodup_iff).mp hn
    have hpairs := accumCore_session_pairs_perm sessionKey
      (eligSession tdk since untilD) hp
    have hperm' : List.Perm
        ((sessionSummaries tdk since untilD ev₁).map
          fun s => (s.lastTimestamp, (s.key, summaryTotals s)))
        ((sessionSummaries tdk since untilD ev₂).map
          fun s => (s.lastTimestamp, (s.key, summaryTotals s))) := by
      have h := hpairs.map
        (fun t : String × String × Totals => (t.2.1, (t.1, t.2.2)))
      rw [List.map_map, List.map_map] at h
      exact h
    have heq := map_insertionSort_pair_eq lastLe (fun s => s.lastTimestamp)
      (fun a b => Iff.rfl) (fun s => (s.key, summaryTotals s)) _ _ hnS hperm'
    have hreshuffle : ∀ (S : List GroupSummary),
        (S.insertionSort lastLe).map
            (fun s => (s.key, s.lastTimestamp, summaryTotals s)) =
          ((S.insertionSort lastLe).map
            (fun s => (s.lastTimestamp, (s.key, summaryTotals s)))).map
            fun p => (p.2.1, p.1, p.2.2) := by
      intro S
      rw [List.map_map]
      apply List.map_congr_left
      intro s _
      rfl
    unfold buildSessionReport sessionSummaries
    rw [List.map_map, List.map_map, hsessProj, hsessProj, hreshuffle, hreshuffle]
    apply congrArg
    exact heq
  · intro events tdk since untilD pricing row hrow
    unfold buildSessionReport at hrow
    rcases List.mem_map.mp hrow with ⟨s, hs, rfl⟩
    have hsS : s ∈ sessionSummaries tdk since untilD events :=
      (List.perm_insertionSort lastLe _).mem_iff.mp hs
    have hf := find?_eq_of_mem_keyNodup
      (accumCore_wf sessionKey true (eligSession tdk since untilD) events).1 hsS
    exact accumCore_find_last sessionKey (eligSession tdk since untilD) events
      s.key s hf

/-- Session counterexample events: two sessions whose only events share
one timestamp. -/
def evSessionA : TokenUsageEvent :=
  { timestamp := "t1", sessionId := some "A", model := some "m",
    inputTokens := 1, totalTokens := 1 }

/-- Second session counterexample event. -/
def evSessionB : TokenUsageEvent :=
  { timestamp := "t1", sessionId := some "B", model := some "m",
    inputTokens := 2, totalTokens := 2 }

theorem report_perm_invariance_counterexample :
    List.Perm [evSessionA, evSessionB] [evSessionB, evSessionA] ∧
    (buildSessionReport [evSessionA, evSessionB] (fun _ => "d") none none
        (fun _ => none)).map (fun r => r.sessionId) = ["A", "B"] ∧
    (buildSessionReport [evSessionB, evSessionA] (fun _ => "d") none none
        (fun _ => none)).map (fun r => r.sessionId) = ["B", "A"] ∧
    (buildSessionReport [evSessionA, evSessionB] (fun _ => "d") none none
        (fun _ => none)).map (fun r => r.sessionId) ≠
      (buildSessionReport [evSessionB, evSessionA] (fun _ => "d") none none
        (fun _ => none)).map (fun r => r.sessionId) := by
  refine ⟨List.Perm.swap evSessionB evSessionA [], rfl, rfl, ?_⟩
  intro h
  rw [show (buildSessionReport [evSessionA, evSessionB] (fun _ => "d") none none
      (fun _ => none)).map (fun r => r.sessionId) = ["A", "B"] from rfl,
    show (buildSessionReport [evSessionB, evSessionA] (fun _ => "d") none none
      (fun _ => none)).map (fun r => r.sessionId) = ["B", "A"] from rfl] at h
  exact absurd h (by decide)

theorem report_perm_invariance_witness :
    (buildDailyReport [evWitness] (fun x => x) id none none
        (fun _ => none)).map dailyRowKeyTotals =
      (buildDailyReport [evWitness] (fun x => x) id none none
        (fun _ => none)).map dailyRowKeyTotals :=
  report_perm_invariance.1 [evWitness] [evWitness] (fun x => x) id none none
    (fun _ => none) (List.Perm.refl _)

theorem eligDaily_isSome_eq (tdk : String → String) (since untilD : Option String)
    (e : TokenUsageEvent) :
    (eligDaily tdk since untilD e).isSome =
      ((match e.model with
        | none => false
        | some raw => decide (¬ strTrim raw = "")) &&
        isWithinRange (tdk e.timestamp) since untilD) := by
  unfold eligDaily
  cases e.model with
  | none => rfl
  | some raw =>
    by_cases h : strTrim raw = ""
    · simp [h]
    · by_cases hr : isWithinRange (tdk e.timestamp) since untilD = true
      · simp [h, hr]
      · have hr' : isWithinRange (tdk e.timestamp) since untilD = false := by
          cases hb : isWithinRange (tdk e.timestamp) since untilD
          · rfl
          · exact absurd hb hr
        simp [h, hr']

theorem eligSession_isSome_eq (tdk : String → String)
    (since untilD : Option String) (e : TokenUsageEvent) :
    (eligSession tdk since untilD e).isSome =
      ((match e.sessionId with
        | none => false
        | some rawSession => decide (¬ strTrim rawSession = "")) &&
        ((match e.model with
          | none => false
          | some raw => decide (¬ strTrim raw = "")) &&
          isWithinRange (tdk e.timestamp) since untilD)) := by
  unfold eligSession
  cases e.sessionId with
  | none => rfl
  | some rawSession =>
    by_cases h : strTrim rawSession = ""
    · simp [h]
    · have hd : (decide (¬ strTrim rawSession = "")) = true := by simp [h]
      simp only [if_neg h, hd, Bool.true_and]
      exact eligDaily_isSome_eq tdk since untilD e

/-- The spelled-out daily/monthly per-event guard of the claim. -/
theorem hitsKey_daily_spelled (tdk : String → String)
    (since untilD : Option String) (gk : TokenUsageEvent → String) (k : String)
    (e : TokenUsageEvent) :
    hitsKey gk (eligDaily tdk since untilD) k e =
      ((match e.model with
        | none => false
        | some raw => decide (¬ strTrim raw = "")) &&
        isWithinRange (tdk e.timestamp) since untilD &&
        decide (gk e = k)) := by
  unfold hitsKey
  rw [eligDaily_isSome_eq]

/-- The spelled-out session per-event guard of the claim. -/
theorem hitsKey_session_spelled (tdk : String → String)
    (since untilD : Option String) (k : String) (e : TokenUsageEvent) :
    hitsKey sessionKey (eligSession tdk since untilD) k e =
      ((match e.sessionId with
        | none => false
        | some rawSession => decide (¬ strTrim rawSession = "")) &&
        ((match e.model with
          | none => false
          | some raw => decide (¬ strTrim raw = "")) &&
          isWithinRange (tdk e.timestamp) since untilD) &&
        decide (sessionKey e = k)) := by
  unfold hitsKey
  rw [eligSession_isSome_eq]

/-- C5: an event contributes to a summary exactly when its model name is
present and non-blank after trimming, (for sessions) its session id is
present and non-blank after trimming, and its day key passes the
inclusive `[since, until]` filter; the filter acts per event even for
month and session grouping, so each group accumulates exactly its
in-range events. -/
theorem per_event_filtering :
    (∀ tdk since untilD events k sm,
      (dailySummaries tdk since untilD events).find? (fun s => s.key = k) =
          some sm →
      summaryTotals sm = ((events.filter fun e =>
        (match e.model with
          | none => false
          | some raw => decide (¬ strTrim raw = "")) &&
        isWithinRange (tdk e.timestamp) since untilD &&
        decide (tdk e.timestamp = k)).map eventTotals).sum) ∧
    (∀ tdk since untilD events k,
      (dailySummaries tdk since untilD events).find? (fun s => s.key = k) =
          none ↔
      ∀ e ∈ events,
        ((match e.model with
          | none => false
          | some raw => decide (¬ strTrim raw = "")) &&
        isWithinRange (tdk e.timestamp) since untilD &&
        decide (tdk e.timestamp = k)) = false) ∧
    (∀ tdk tmk since untilD events k sm,
      (monthlySummaries tdk tmk since untilD events).find? (fun s => s.key = k) =
          some sm →
      summaryTotals sm = ((events.filter fun e =>
        (match e.model with
          | none => false
          | some raw => decide (¬ strTrim raw = "")) &&
        isWithinRange (tdk e.timestamp) since untilD &&
        decide (tmk e.timestamp = k)).map eventTotals).sum) ∧
    (∀ tdk tmk since untilD events k,
      (monthlySummaries tdk tmk since untilD events).find? (fun s => s.key = k) =
          none ↔
      ∀ e ∈ events,
        ((match e.model with
          | none => false
          | some raw => decide (¬ strTrim raw = "")) &&
        isWithinRange (tdk e.timestamp) since untilD &&
        decide (tmk e.timestamp = k)) = false) ∧
    (∀ tdk since untilD events k sm,
      (sessionSummaries tdk since untilD events).find? (fun s => s.key = k) =
          some sm →
      summaryTotals sm = ((events.filter fun e =>
        (match e.sessionId with
          | none => false
          | some rawSession => decide (¬ strTrim rawSession = "")) &&
        ((match e.model with
          | none => false
          | some raw => decide (¬ strTrim raw = "")) &&
          isWithinRange (tdk e.timestamp) since untilD) &&
        decide (sessionKey e = k)).map eventTotals).sum) ∧
    (∀ tdk since untilD events k,
      (sessionSummaries tdk since untilD events).find? (fun s => s.key = k) =
          none ↔
      ∀ e ∈ events,
        ((match e.sessionId with
          | none => false
          | some rawSession => decide (¬ strTrim rawSession = "")) &&
        ((match e.model with
          | none => false
          | some raw => decide (¬ strTrim raw = "")) &&
          isWithinRange (tdk e.timestamp) since untilD) &&
        decide (sessionKey e = k)) = false) := by
  have hdpred : ∀ tdk since untilD (gk : TokenUsageEvent → String) k,
      (fun e => (match e.model with
        | none => false
        | some raw => decide (¬ strTrim raw = "")) &&
        isWithinRange (tdk e.timestamp) since untilD &&
        decide (gk e = k)) = hitsKey gk (eligDaily tdk since untilD) k := by
    intro tdk since untilD gk k
    funext e
    rw [hitsKey_daily_spelled]
  have hspred : ∀ tdk since untilD k,
      (fun e => (match e.sessionId with
        | none => false
        | some rawSession => decide (¬ strTrim rawSession = "")) &&
        ((match e.model with
          | none => false
          | some raw => decide (¬ strTrim raw = "")) &&
          isWithinRange (tdk e.timestamp) since untilD) &&
        decide (sessionKey e = k)) =
        hitsKey sessionKey (eligSession tdk since untilD) k := by
    intro tdk since untilD k
    funext e
    rw [hitsKey_session_spelled]
  refine ⟨?_, ?_, ?_, ?_, ?_, ?_⟩
  · intro tdk since untilD events k sm h
    rw [hdpred]
    exact (accumCore_find_totals _ _ _ events k sm h).2
  · intro tdk since untilD events k
    constructor
    · intro h e he
      have := (accumCore_find_none_iff _ _ _ events k).mp h e he
      rw [← hdpred tdk since untilD (fun e => tdk e.timestamp) k] at this
      exact this
    · intro h
      apply (accumCore_find_none_iff _ _ _ events k).mpr
      intro e he
      rw [hitsKey_daily_spelled]
      exact h e he
  · intro tdk tmk since untilD events k sm h
    rw [hdpred]
    exact (accumCore_find_totals _ _ _ events k sm h).2
  · intro tdk tmk since untilD events k
    constructor
    · intro h e he
      have := (accumCore_find_none_iff _ _ _ events k).mp h e he
      rw [← hdpred tdk since untilD (fun e => tmk e.timestamp) k] at this
      exact this
    · intro h
      apply (accumCore_find_none_iff _ _ _ events k).mpr
      intro e he
      rw [hitsKey_daily_spelled]
      exact h e he
  · intro tdk since untilD events k sm h
    rw [hspred]
    exact (accumCore_find_totals _ _ _ events k sm h).2
  · intro tdk since untilD events k
    constructor
    · intro h e he
      have := (accumCore_find_none_iff _ _ _ events k).mp h e he
      rw [← hspred tdk since untilD k] at this
      exact this
    · intro h
      apply (accumCore_find_none_iff _ _ _ events k).mpr
      intro e he
      rw [hitsKey_session_spelled]
      exact h e he

theorem per_event_filtering_witness :
    summaryTotals (((dailySummaries (fun x => x) none none [evWitness]).find?
        (fun s => s.key = "t2")).getD (createSummary "" "")) =
      (([evWitness].filter fun e =>
        (match e.model with
          | none => false
          | some raw => decide (¬ strTrim raw = "")) &&
        isWithinRange e.timestamp none none &&
        decide (e.timestamp = "t2")).map eventTotals).sum :=
  per_event_filtering.1 (fun x => x) none none [evWitness] "t2" _ rfl

/-! ### Pricing claims -/

theorem normalizeModelPricing_ok {model : String} {r : ResolvedPricing} {a b : ℚ}
    (hin : r.pricing.input_cost_per_token = some a)
    (hout : r.pricing.output_cost_per_token = some b) :
    normalizeModelPricing model r = .ok
      { inputCostPerMToken := a * MILLION,
        cachedInputCostPerMToken :=
          (r.pricing.cache_read_input_token_cost.getD a) * MILLION,
        outputCostPerMToken := b * MILLION,
        pricingResolution := r.resolution,
        pricingModel := r.key } := by
  simp only [normalizeModelPricing]
  rw [hin, hout]
  rfl

/-- C1: resolution tiers run strictly in the order direct, alias, fuzzy
(only when enabled), configured fallback, first success winning; within
the direct tier the verbatim name is tried first and then each provider
prefix in list order; a direct match beats a priced alias target and is
tagged `direct`. -/
theorem getPricing_tier_order :
    (∀ pm (model : String) p, mapGet model pm = some p →
      findDirectPricing pm model = some (createResolvedPricing model p .direct)) ∧
    (∀ pm (model : String) p, mapGet model pm = none →
      mapGet ("openai/" ++ model) pm = some p →
      findDirectPricing pm model =
        some (createResolvedPricing ("openai/" ++ model) p .direct)) ∧
    (∀ pm (model : String) p, mapGet model pm = none →
      mapGet ("openai/" ++ model) pm = none →
      mapGet ("azure/" ++ model) pm = some p →
      findDirectPricing pm model =
        some (createResolvedPricing ("azure/" ++ model) p .direct)) ∧
    (∀ pm (model : String) p, mapGet model pm = none →
      mapGet ("openai/" ++ model) pm = none →
      mapGet ("azure/" ++ model) pm = none →
      mapGet ("openrouter/openai/" ++ model) pm = some p →
      findDirectPricing pm model =
        some (createResolvedPricing ("openrouter/openai/" ++ model) p .direct)) ∧
    (∀ cfg pm model r, findDirectPricing pm model = some r →
      getPricing cfg pm model =
        (normalizeModelPricing model r).map (fun mp => (mp, []))) ∧
    (∀ cfg pm model r, findDirectPricing pm model = none →
      findAliasPricing pm model = some r →
      getPricing cfg pm model =
        (normalizeModelPricing model r).map (fun mp => (mp, []))) ∧
    (∀ pm model, findDirectPricing pm model = none →
      findAliasPricing pm model = none →
      getPricing { allowFuzzyPricing := false, unknownModelFallback := none }
          pm model = .error (.notFound model false)) ∧
    (∀ cfg pm model p a b, mapGet model pm = some p →
      p.input_cost_per_token = some a → p.output_cost_per_token = some b →
      getPricing cfg pm model =
        .ok ({ inputCostPerMToken := a * MILLION,
               cachedInputCostPerMToken :=
                 (p.cache_read_input_token_cost.getD a) * MILLION,
               outputCostPerMToken := b * MILLION,
               pricingResolution := .direct,
               pricingModel := model }, [])) := by
  have hdir1 : ∀ pm (model : String) p, mapGet model pm = some p →
      findDirectPricing pm model = some (createResolvedPricing model p .direct) := by
    intro pm model p h
    unfold findDirectPricing
    simp [CODEX_PROVIDER_PREFIXES, List.findSome?_cons, h]
  have hdirect_getPricing : ∀ cfg pm model r, findDirectPricing pm model = some r →
      getPricing cfg pm model =
        (normalizeModelPricing model r).map (fun mp => (mp, [])) := by
    intro cfg pm model r h
    unfold getPricing
    rw [h]
  refine ⟨hdir1, ?_, ?_, ?_, hdirect_getPricing, ?_, ?_, ?_⟩
  · intro pm model p h0 h1
    unfold findDirectPricing
    simp [CODEX_PROVIDER_PREFIXES, List.findSome?_cons, h0, h1]
  · intro pm model p h0 h1 h2
    unfold findDirectPricing
    simp [CODEX_PROVIDER_PREFIXES, List.findSome?_cons, h0, h1, h2]
  · intro pm model p h0 h1 h2 h3
    unfold findDirectPricing
    simp [CODEX_PROVIDER_PREFIXES, List.findSome?_cons, h0, h1, h2, h3]
  · intro cfg pm model r hd ha
    unfold getPricing
    rw [hd, ha]
  · intro pm model hd ha
    unfold getPricing
    rw [hd, ha]
    rfl
  · intro cfg pm model p a b hm hin hout
    rw [hdirect_getPricing cfg pm model _ (hdir1 pm model p hm)]
    rw [normalizeModelPricing_ok (r := createResolvedPricing model p .direct)
      (by exact hin) (by exact hout)]
    rfl

/-- A one-entry price list used by pricing witnesses. -/
def pmWitness : PricingMap :=
  [("m",
    { input_cost_per_token := some 1
      output_cost_per_token := some 2
      cache_read_input_token_cost := none })]

theorem getPricing_tier_order_witness :
    getPricing {} pmWitness "m" =
      .ok ({ inputCostPerMToken := 1 * MILLION,
             cachedInputCostPerMToken :=
               ((none : Option ℚ).getD 1) * MILLION,
             outputCostPerMToken := 2 * MILLION,
             pricingResolution := .direct,
             pricingModel := "m" }, []) :=
  getPricing_tier_order.2.2.2.2.2.2.2 {} pmWitness "m"
    { input_cost_per_token := some 1
      output_cost_per_token := some 2
      cache_read_input_token_cost := none }
    1 2 rfl rfl rfl

theorem infix_append_left {l m p : List Char} (h : l <:+: m) : l <:+: p ++ m := by
  rcases h with ⟨s, t, hst⟩
  exact ⟨p ++ s, t, by rw [← hst]; simp [List.append_assoc]⟩

theorem mem_joinComma_infix {c : String} {l : List String} (h : c ∈ l) :
    c.data <:+: (joinComma l).data := by
  induction l with
  | nil => cases h
  | cons x xs ih =>
    cases xs with
    | nil =>
      have hx : c = x := by simpa using h
      rw [hx]
      exact List.infix_refl _
    | cons y ys =>
      rcases List.mem_cons.mp h with rfl | h'
      · refine ⟨[], ", ".data ++ (joinComma (y :: ys)).data, ?_⟩
        rw [List.nil_append]
        exact (List.append_assoc c.data ", ".data (joinComma (y :: ys)).data).symm
      · rcases ih h' with ⟨s, t, hst⟩
        refine ⟨(x ++ ", ").data ++ s, t, ?_⟩
        rw [List.append_assoc] at hst
        rw [List.append_assoc, List.append_assoc, hst]
        rfl

/-- C3: the fuzzy tier collects every key that case-insensitively
contains the model name or is contained in it; zero matches fail softly
(resolution moves on), a unique match resolves tagged `fuzzy`, two or
more matches throw the ambiguity error through `getPricing`, and its
message enumerates every candidate key. -/
theorem findFuzzyPricing_cases :
    (∀ pm model k p, (k, p) ∈ fuzzyMatches pm model ↔
      ((k, p) ∈ pm ∧ (strContainsSub (strLower k) (strLower model) = true ∨
        strContainsSub (strLower model) (strLower k) = true))) ∧
    (∀ pm model, fuzzyMatches pm model = [] →
      findFuzzyPricing pm model = .ok none) ∧
    (∀ pm model k p, fuzzyMatches pm model = [(k, p)] →
      findFuzzyPricing pm model = .ok (some (createResolvedPricing k p .fuzzy))) ∧
    (∀ pm model, 2 ≤ (fuzzyMatches pm model).length →
      findFuzzyPricing pm model =
        .error (.ambiguousFuzzy model ((fuzzyMatches pm model).map Prod.fst))) ∧
    (∀ model cands cand, cand ∈ cands →
      strContainsSub (renderPricingError (.ambiguousFuzzy model cands)) cand =
        true) ∧
    (∀ cfg pm model, cfg.allowFuzzyPricing = true →
      findDirectPricing pm model = none → findAliasPricing pm model = none →
      2 ≤ (fuzzyMatches pm model).length →
      getPricing cfg pm model =
        .error (.ambiguousFuzzy model ((fuzzyMatches pm model).map Prod.fst))) ∧
    (∀ cfg pm model, cfg.allowFuzzyPricing = true →
      cfg.unknownModelFallback = none →
      findDirectPricing pm model = none → findAliasPricing pm model = none →
      fuzzyMatches pm model = [] →
      getPricing cfg pm model = .error (.notFound model true)) := by
  have hfuzzyAmb : ∀ pm model, 2 ≤ (fuzzyMatches pm model).length →
      findFuzzyPricing pm model =
        .error (.ambiguousFuzzy model ((fuzzyMatches pm model).map Prod.fst)) := by
    intro pm model h
    unfold findFuzzyPricing
    rw [if_neg (by omega), if_pos (by omega)]
  have hfuzzyNone : ∀ pm model, fuzzyMatches pm model = [] →
      findFuzzyPricing pm model = .ok none := by
    intro pm model h
    unfold findFuzzyPricing
    rw [h]
    rfl
  refine ⟨?_, hfuzzyNone, ?_, hfuzzyAmb, ?_, ?_, ?_⟩
  · intro pm model k p
    unfold fuzzyMatches
    rw [List.mem_filter]
    simp
  · intro pm model k p h
    unfold findFuzzyPricing
    rw [h]
    rfl
  · intro model cands cand hc
    have hmem : cand.data <:+: (joinComma cands).data := mem_joinComma_infix hc
    simp only [renderPricingError, strContainsSub]
    rw [infixOfB_iff, strData_append]
    exact infix_append_left hmem
  · intro cfg pm model haf hd ha hlen
    unfold getPricing
    rw [hd, ha, haf]
    simp only [if_true]
    rw [hfuzzyAmb pm model hlen]
  · intro cfg pm model haf hfb hd ha hfz
    unfold getPricing
    rw [hd, ha, haf]
    simp only [if_true]
    rw [hfuzzyNone pm model hfz, hfb]

/-- Price list with two fuzzy candidates for the model name "gpt". -/
def pmFuzzy : PricingMap :=
  [("a-gpt",
    { input_cost_per_token := some 1
      output_cost_per_token := some 2
      cache_read_input_token_cost := none }),
   ("b-gpt",
    { input_cost_per_token := some 1
      output_cost_per_token := some 2
      cache_read_input_token_cost := none })]

theorem findFuzzyPricing_cases_witness :
    findFuzzyPricing pmFuzzy "gpt" =
      .error (.ambiguousFuzzy "gpt" ((fuzzyMatches pmFuzzy "gpt").map Prod.fst)) :=
  findFuzzyPricing_cases.2.2.2.1 pmFuzzy "gpt" (by decide)

theorem findFuzzyPricing_nil {pm : PricingMap} {model : String}
    (h : fuzzyMatches pm model = []) : findFuzzyPricing pm model = .ok none := by
  unfold findFuzzyPricing
  rw [h]
  rfl

theorem normalizeModelPricing_err {model : String} {r : ResolvedPricing}
    (h : r.pricing.input_cost_per_token = none ∨
      r.pricing.output_cost_per_token = none) :
    normalizeModelPricing model r = .error (.incomplete model) := by
  rcases h with h | h
  · cases hout : r.pricing.output_cost_per_token <;>
      simp [normalizeModelPricing, h, hout]
  · cases hin : r.pricing.input_cost_per_token <;>
      simp [normalizeModelPricing, h, hin]

/-- `getPricing` when direct, alias, and (if enabled) fuzzy all find
nothing: only the configured-fallback step remains. -/
theorem getPricing_no_resolution {cfg : CodexPricingConfig} {pm : PricingMap}
    {model : String}
    (hd : findDirectPricing pm model = none)
    (ha : findAliasPricing pm model = none)
    (hfz : cfg.allowFuzzyPricing = true → fuzzyMatches pm model = []) :
    getPricing cfg pm model =
      (match cfg.unknownModelFallback with
       | none => .error (.notFound model cfg.allowFuzzyPricing)
       | some fb =>
         if strTrim fb ≠ "" then
           match (findDirectPricing pm (strTrim fb)).orElse
               (fun _ => findAliasPricing pm (strTrim fb)) with
           | none => .error (.fallbackFailed (strTrim fb) model)
           | some fp =>
             (normalizeModelPricing model
               (createResolvedPricing fp.key fp.pricing .fallback)).map
               fun mp =>
                 (mp, ["Using fallback model pricing: " ++ model ++ " -> " ++
                   strTrim fb])
         else .error (.notFound model cfg.allowFuzzyPricing)) := by
  unfold getPricing
  rw [hd, ha]
  cases haf : cfg.allowFuzzyPricing
  · rfl
  · rw [findFuzzyPricing_nil (hfz haf)]
    rfl

theorem getPricing_of_direct {cfg : CodexPricingConfig} {pm : PricingMap}
    {model : String} {r : ResolvedPricing}
    (h : findDirectPricing pm model = some r) :
    getPricing cfg pm model =
      (normalizeModelPricing model r).map (fun mp => (mp, [])) := by
  unfold getPricing
  rw [h]

theorem getPricing_fallback_eq {cfg : CodexPricingConfig} {pm : PricingMap}
    {model fb : String}
    (hd : findDirectPricing pm model = none)
    (ha : findAliasPricing pm model = none)
    (hfz : cfg.allowFuzzyPricing = true → fuzzyMatches pm model = [])
    (hcfg : cfg.unknownModelFallback = some fb)
    (htrim : strTrim fb ≠ "") :
    getPricing cfg pm model =
      (match (findDirectPricing pm (strTrim fb)).orElse
          (fun _ => findAliasPricing pm (strTrim fb)) with
       | none => .error (.fallbackFailed (strTrim fb) model)
       | some fp =>
         (normalizeModelPricing model
           (createResolvedPricing fp.key fp.pricing .fallback)).map
           fun mp =>
             (mp, ["Using fallback model pricing: " ++ model ++ " -> " ++
               strTrim fb])) := by
  rw [getPricing_no_resolution hd ha hfz, hcfg]
  exact if_pos htrim

/-- C6: when the earlier tiers fail, a configured non-blank fallback is
resolved with the direct and alias tiers only; success is tagged
`fallback` and surfaces the warning message, and when even the fallback
cannot be resolved the fatal error names the fallback model. -/
theorem getPricing_fallback :
    (∀ cfg pm model fb r mp,
      cfg.unknownModelFallback = some fb →
      findDirectPricing pm model = none → findAliasPricing pm model = none →
      (cfg.allowFuzzyPricing = true → fuzzyMatches pm model = []) →
      strTrim fb ≠ "" →
      (findDirectPricing pm (strTrim fb)).orElse
        (fun _ => findAliasPricing pm (strTrim fb)) = some r →
      normalizeModelPricing model
        (createResolvedPricing r.key r.pricing .fallback) = .ok mp →
      getPricing cfg pm model =
        .ok (mp, ["Using fallback model pricing: " ++ model ++ " -> " ++
          strTrim fb]) ∧ mp.pricingResolution = .fallback) ∧
    (∀ cfg pm model fb,
      cfg.unknownModelFallback = some fb →
      findDirectPricing pm model = none → findAliasPricing pm model = none →
      (cfg.allowFuzzyPricing = true → fuzzyMatches pm model = []) →
      strTrim fb ≠ "" →
      findDirectPricing pm (strTrim fb) = none →
      findAliasPricing pm (strTrim fb) = none →
      getPricing cfg pm model = .error (.fallbackFailed (strTrim fb) model)) ∧
    (∀ fbm model, renderPricingError (.fallbackFailed fbm model) =
      "Configured fallback model " ++ fbm ++ " could not be resolved for " ++
        model) := by
  refine ⟨?_, ?_, ?_⟩
  · intro cfg pm model fb r mp hcfg hd ha hfz htrim hres hnorm
    constructor
    · rw [getPricing_fallback_eq hd ha hfz hcfg htrim, hres]
      show (normalizeModelPricing model
          (createResolvedPricing r.key r.pricing .fallback)).map
          (fun mp =>
            (mp, ["Using fallback model pricing: " ++ model ++ " -> " ++
              strTrim fb])) =
        .ok (mp, ["Using fallback model pricing: " ++ model ++ " -> " ++
          strTrim fb])
      rw [hnorm]
      rfl
    · have hres' : (normalizeModelPricing model
          (createResolvedPricing r.key r.pricing .fallback)) = .ok mp := hnorm
      cases hin : r.pricing.input_cost_per_token with
      | none =>
        rw [normalizeModelPricing_err (r := createResolvedPricing r.key
          r.pricing .fallback) (Or.inl (by exact hin))] at hres'
        cases hres'
      | some a =>
        cases hout : r.pricing.output_cost_per_token with
        | none =>
          rw [normalizeModelPricing_err (r := createResolvedPricing r.key
            r.pricing .fallback) (Or.inr (by exact hout))] at hres'
          cases hres'
        | some b =>
          rw [normalizeModelPricing_ok (r := createResolvedPricing r.key
            r.pricing .fallback) (by exact hin) (by exact hout)] at hres'
          have := (Except.ok.injEq _ _).mp hres'
          rw [← this]
          rfl
  · intro cfg pm model fb hcfg hd ha hfz htrim hfbd hfba
    rw [getPricing_fallback_eq hd ha hfz hcfg htrim, hfbd, hfba]
    rfl
  · intro fbm model
    rfl

theorem getPricing_fallback_witness :
    getPricing { unknownModelFallback := some " m " } [] "zzz" =
      .error (.fallbackFailed (strTrim " m ") "zzz") :=
  getPricing_fallback.2.1 { unknownModelFallback := some " m " } [] "zzz" " m "
    rfl rfl rfl (fun h => by cases h) (by decide) rfl rfl

/-- C7: normalization scales per-token costs by one million, defaults
the cached-input cost to the plain input cost when no distinct
cache-read cost exists, and a record missing its required input or
output cost makes `getPricing` fail with the error whose message names
the model. -/
theorem normalize_pricing_spec :
    (∀ (v : ℚ) fbv, toPerMillion (some v) fbv = .ok (v * MILLION)) ∧
    (∀ model key res p (a b : ℚ),
      p.input_cost_per_token = some a → p.output_cost_per_token = some b →
      normalizeModelPricing model (createResolvedPricing key p res) =
        .ok { inputCostPerMToken := a * MILLION,
              cachedInputCostPerMToken :=
                (p.cache_read_input_token_cost.getD a) * MILLION,
              outputCostPerMToken := b * MILLION,
              pricingResolution := res,
              pricingModel := key }) ∧
    (∀ model key res p (a b : ℚ) mp,
      p.input_cost_per_token = some a → p.output_cost_per_token = some b →
      p.cache_read_input_token_cost = none →
      normalizeModelPricing model (createResolvedPricing key p res) = .ok mp →
      mp.cachedInputCostPerMToken = mp.inputCostPerMToken) ∧
    (∀ model key res p,
      p.input_cost_per_token = none ∨ p.output_cost_per_token = none →
      normalizeModelPricing model (createResolvedPricing key p res) =
        .error (.incomplete model)) ∧
    (∀ model : String,
      strContainsSub (renderPricingError (.incomplete model)) model = true) ∧
    (∀ cfg pm model r, findDirectPricing pm model = some r →
      r.pricing.input_cost_per_token = none ∨
        r.pricing.output_cost_per_token = none →
      getPricing cfg pm model = .error (.incomplete model)) := by
  refine ⟨?_, ?_, ?_, ?_, ?_, ?_⟩
  · intro v fbv
    rfl
  · intro model key res p a b hin hout
    exact normalizeModelPricing_ok (r := createResolvedPricing key p res)
      (by exact hin) (by exact hout)
  · intro model key res p a b mp hin hout hcache hok
    rw [normalizeModelPricing_ok (r := createResolvedPricing key p res)
      (by exact hin) (by exact hout)] at hok
    have := (Except.ok.injEq _ _).mp hok
    rw [← this]
    show ((createResolvedPricing key p
      res).pricing.cache_read_input_token_cost.getD a) * MILLION = a * MILLION
    have hc : (createResolvedPricing key p res).pricing.cache_read_input_token_cost
        = none := hcache
    rw [hc]
    rfl
  · intro model key res p h
    exact normalizeModelPricing_err (r := createResolvedPricing key p res)
      (by exact h)
  · intro model
    show infixOfB model.data (renderPricingError (.incomplete model)).data = true
    rw [infixOfB_iff]
    exact ⟨"Pricing for model ".data,
      " is incomplete: input_cost_per_token and output_cost_per_token are required".data,
      rfl⟩
  · intro cfg pm model r hd herr
    rw [getPricing_of_direct hd, normalizeModelPricing_err herr]
    rfl

theorem normalize_pricing_spec_witness :
    normalizeModelPricing "m" (createResolvedPricing "k"
      { input_cost_per_token := some 1
        output_cost_per_token := some 2
        cache_read_input_token_cost := none } .alias) =
      .ok { inputCostPerMToken := 1 * MILLION,
            cachedInputCostPerMToken :=
              (((none : Option ℚ)).getD 1) * MILLION,
            outputCostPerMToken := 2 * MILLION,
            pricingResolution := .alias,
            pricingModel := "k" } :=
  normalize_pricing_spec.2.1 "m" "k" .alias
    { input_cost_per_token := some 1
      output_cost_per_token := some 2
      cache_read_input_token_cost := none }
    1 2 rfl rfl

/-- C8 (amended): when every attempted tier fails, `getPricing` throws
the pricing-not-found error carrying the fuzzy-availability flag; with
fuzzy disabled the message says fuzzy matching is disabled and names the
flag that enables it, while with fuzzy enabled the message is the bare
not-found line (which does not mention fuzzy matching). -/
theorem getPricing_notFound :
    (∀ cfg pm model,
      findDirectPricing pm model = none → findAliasPricing pm model = none →
      (cfg.allowFuzzyPricing = true → fuzzyMatches pm model = []) →
      (cfg.unknownModelFallback = none ∨
        cfg.unknownModelFallback.map strTrim = some "") →
      getPricing cfg pm model =
        .error (.notFound model cfg.allowFuzzyPricing)) ∧
    (∀ model : String, renderPricingError (.notFound model false) =
      "Pricing not found for model " ++ model ++
        ". Fuzzy matching is disabled; pass --allow-fuzzy-pricing to enable it.") ∧
    (∀ model : String, renderPricingError (.notFound model true) =
      "Pricing not found for model " ++ model) := by
  refine ⟨?_, ?_, ?_⟩
  · intro cfg pm model hd ha hfz hfb
    rw [getPricing_no_resolution hd ha hfz]
    rcases hfb with hnone | hblank
    · rw [hnone]
    · rcases Option.map_eq_some'.mp hblank with ⟨fb, hfb', htrim⟩
      rw [hfb']
      simp only
      rw [if_neg (by simp [htrim])]
  · intro model
    rfl
  · intro model
    rfl

theorem getPricing_notFound_witness :
    getPricing { allowFuzzyPricing := true } [] "m" =
      .error (.notFound "m" true) :=
  getPricing_notFound.1 { allowFuzzyPricing := true } [] "m" rfl rfl
    (fun _ => rfl) (Or.inl rfl)

theorem getPricing_notFound_counterexample :
    getPricing { allowFuzzyPricing := true } [] "m" =
      .error (.notFound "m" true) ∧
    renderPricingError (.notFound "m" true) = "Pricing not found for model m" ∧
    strContainsSub (renderPricingError (.notFound "m" true)) "uzzy" = false ∧
    strContainsSub (renderPricingError (.notFound "m" true)) "Fuzzy" = false := by
  refine ⟨rfl, rfl, ?_, ?_⟩ <;> decide

/-- C2 (modelled from the spec: `calculateCostUSD` lives in the missing
`token-utils.ts`): the USD cost is uncached input at the input rate plus
cached input at the cached rate plus all output at the output rate;
reasoning-output tokens never change the cost, and each builder's row
cost is exactly the sum of this formula over the row's priced models. -/
theorem calculateCostUSD_spec :
    (∀ u p, calculateCostUSD u p =
      ((u.inputTokens : ℚ) - (u.cachedInputTokens : ℚ)) / 1000000 *
          p.inputCostPerMToken +
        (u.cachedInputTokens : ℚ) / 1000000 * p.cachedInputCostPerMToken +
        (u.outputTokens : ℚ) / 1000000 * p.outputCostPerMToken) ∧
    (∀ u p r, calculateCostUSD { u with reasoningOutputTokens := r } p =
      calculateCostUSD u p) ∧
    (∀ events tdk fmt since untilD pricing row,
      row ∈ buildDailyReport events tdk fmt since untilD pricing →
      row.costUSD = (row.models.map fun kv =>
        match pricing kv.1 with
        | some p => calculateCostUSD kv.2 p
        | none => 0).sum) ∧
    (∀ events tdk since untilD pricing row,
      row ∈ buildSessionReport events tdk since untilD pricing →
      row.costUSD = (row.models.map fun kv =>
        match pricing kv.1 with
        | some p => calculateCostUSD kv.2 p
        | none => 0).sum) := by
  refine ⟨?_, ?_, ?_, ?_⟩
  · intro u p
    rfl
  · intro u p r
    rfl
  · intro events tdk fmt since untilD pricing row hrow
    unfold buildDailyReport at hrow
    rcases List.mem_map.mp hrow with ⟨s, _, rfl⟩
    show rowCost pricing s.models =
      ((attachPricing pricing s.models).map fun kv =>
        match pricing kv.1 with
        | some p => calculateCostUSD kv.2 p
        | none => 0).sum
    rw [show ((attachPricing pricing s.models).map fun kv =>
        match pricing kv.1 with
        | some p => calculateCostUSD kv.2 p
        | none => 0).sum = rowCost pricing (attachPricing pricing s.models)
      from rfl]
    rw [rowCost_attach]
  · intro events tdk since untilD pricing row hrow
    unfold buildSessionReport at hrow
    rcases List.mem_map.mp hrow with ⟨s, _, rfl⟩
    show rowCost pricing s.models =
      ((attachPricing pricing s.models).map fun kv =>
        match pricing kv.1 with
        | some p => calculateCostUSD kv.2 p
        | none => 0).sum
    rw [show ((attachPricing pricing s.models).map fun kv =>
        match pricing kv.1 with
        | some p => calculateCostUSD kv.2 p
        | none => 0).sum = rowCost pricing (attachPricing pricing s.models)
      from rfl]
    rw [rowCost_attach]

theorem calculateCostUSD_spec_witness :
    (firstDailyRow (buildDailyReport [evWitness] (fun x => x) id none none
        (fun _ => none))).costUSD =
      ((firstDailyRow (buildDailyReport [evWitness] (fun x => x) id none none
        (fun _ => none))).models.map fun kv =>
        match (fun _ : String => (none : Option ModelPricing)) kv.1 with
        | some p => calculateCostUSD kv.2 p
        | none => 0).sum :=
  calculateCostUSD_spec.2.2.1 [evWitness] (fun x => x) id none none
    (fun _ => none) _ (List.mem_cons_self _ _)

end Ccusage
